import Mathlib

/-!
Verification development for the Parallel-task-Prioritize scheduler
(`src/app.py`).  The Python program is shallowly embedded: dictionaries
become structures with `Option` fields standing for keys read through
`dict.get(key, default)`, Python numbers (ints and floats) are modelled as
exact rationals, Python string membership (`s in t`) is substring search,
and the CPM passes, readiness resolver, sequence optimizer and scoring
engine are translated as executable functions.  Functions whose Python
bodies are wrapped in `try/except` are total here, with the reachable
exception branches (division by zero, `max` of an empty sequence)
modelled explicitly where they matter.
-/

namespace PTP

/-- Member of a `parallel_group` list: the source stores lightweight
copies carrying id, name, total_delay_cost_per_day, free_float and
current_delay (src/app.py lines 1241/1429). -/
structure ParallelMember where
  id : String
  name : String
  total_delay_cost_per_day : ℚ
  free_float : Int
  current_delay : Int
deriving DecidableEq

/-- One activity record, as loaded by `load_activities` and annotated by
the pipeline.  Fields that the source reads through `dict.get(k, default)`
(they may be absent before some pass has run) are `Option`s; the default
is applied at each use site exactly as in the source. -/
structure Activity where
  id : String
  name : String
  duration : Int
  planned_manpower : ℚ
  skilled_manpower : ℚ
  semi_skilled_manpower : ℚ
  unskilled_manpower : ℚ
  start_day : Int
  dependency_ids : List String
  manpower_cost_per_day : ℚ
  rented_equipment_cost_per_day : ℚ
  owned_equipment_om_cost_per_day : ℚ
  no_equipment_cost_per_day : ℚ
  total_delay_cost_per_day : ℚ
  site_overhead_cost_per_day : ℚ
  base_delay_cost_per_day : ℚ
  free_float : Option Int
  current_delay : Option Int
  available_manpower : Option ℚ
  available_skilled : Option ℚ
  available_semi_skilled : Option ℚ
  available_unskilled : Option ℚ
  equipment_type : Option String
  parallel_group : Option (List ParallelMember)
  is_delayed : Bool
  is_critical : Bool
  is_close_to_critical : Bool
deriving DecidableEq

/-- Fixed weight dictionary returned inside every score breakdown
(src/app.py lines 431-437 and 449-455). -/
structure Weights where
  delay : ℚ
  equipment : ℚ
  manpower : ℚ
  critical_path : ℚ
  material : ℚ
deriving DecidableEq

def theWeights : Weights :=
  { delay := 35, equipment := 25, manpower := 15, critical_path := 15, material := 10 }

/-- Score dictionary returned by `calculate_score` (src/app.py lines 424-438). -/
structure ScoreBreakdown where
  total_score : ℚ
  delay_score : ℚ
  equipment_score : ℚ
  manpower_score : ℚ
  material_score : ℚ
  critical_path_score : ℚ
  weights : Weights
deriving DecidableEq

/-- Default breakdown returned when `calculate_score` hits its exception
handler (src/app.py lines 441-456): total 50.0, delay 17.5, equipment 0,
manpower 7.5, material 5.0, critical path 7.5. -/
def defaultScoreBreakdown : ScoreBreakdown :=
  { total_score := 50, delay_score := 35 / 2, equipment_score := 0,
    manpower_score := 15 / 2, material_score := 5, critical_path_score := 15 / 2,
    weights := theWeights }

/-- Floor of a rational as integer division of numerator by denominator
(kernel-computable form of the floor). -/
def ratFloorZ (q : ℚ) : ℤ := q.num / (q.den : ℤ)

/-- Round half to even at integer precision, the tie-breaking rule of
Python's built-in round (floats are modelled as exact rationals). -/
def roundHalfEvenZ (q : ℚ) : ℤ :=
  let f := ratFloorZ q
  let r := q - (f : ℚ)
  if r < 1 / 2 then f
  else if 1 / 2 < r then f + 1
  else if f % 2 = 0 then f else f + 1

/-- Python round(x, 2). -/
def round2 (q : ℚ) : ℚ := ((roundHalfEvenZ (q * 100) : ℤ) : ℚ) / 100

/-- Hard-coded critical path id list appearing verbatim in
`is_activity_critical`, `is_activity_close_to_critical` and
`get_critical_path` (src/app.py lines 243-249, 261-267, 669-675). -/
def critical_path_sequence : List String :=
  ["A1", "A2", "A3", "A4", "A5", "A6", "A7", "A8", "A9", "A10",
   "A11", "A12", "A13", "A14", "A15", "A16", "A17", "A18", "A19", "A20",
   "A21", "A22", "A23", "A24", "A25", "A26", "A27", "A28", "A29", "A30",
   "A31", "A32", "A33", "A34", "A35", "A36", "A37", "A38", "A39", "A40",
   "A118", "A119", "A120", "A121", "A122"]

/-- Membership of an id in the hard-coded list. -/
def idIsCritical (i : String) : Bool := critical_path_sequence.contains i

/-- is_activity_critical (src/app.py lines 239-255).  The critical_path
argument is accepted and ignored, exactly as in the source: the check is
membership of the activity id in the hard-coded list. -/
def is_activity_critical (a : Activity) (critical_path : List String) : Bool :=
  idIsCritical a.id

/-- Python list-of-characters prefix test used to build substring search. -/
def charsStartWith : List Char → List Char → Bool
  | [], _ => true
  | _ :: _, [] => false
  | c :: cs, d :: ds => c == d && charsStartWith cs ds

/-- Occurrence of one character list inside another (Python operator in
on strings): true when the first list occurs contiguously in the second. -/
def charsOccurIn : List Char → List Char → Bool
  | s, [] => charsStartWith s []
  | s, d :: ds => charsStartWith s (d :: ds) || charsOccurIn s ds

/-- Python substring test s in t. -/
def strIn (s t : String) : Bool := charsOccurIn s.data t.data

/-- is_activity_close_to_critical (src/app.py lines 257-287).  For every
id c in the hard-coded list the loop returns true when: c is among the
activity's dependencies; or the activity's id is a SUBSTRING of c (the
Python expression activity['id'] in critical_activity_id); or any of the
activity's dependencies is in the hard-coded list. -/
def is_activity_close_to_critical (a : Activity) (critical_path : List String) : Bool :=
  critical_path_sequence.any (fun c =>
    a.dependency_ids.contains c
      || strIn a.id c
      || a.dependency_ids.any (fun d => critical_path_sequence.contains d))

/-- get_equipment_cost (src/app.py lines 859-866). -/
def get_equipment_cost (a : Activity) (equipment_type : String) : ℚ :=
  if equipment_type = "rented" then a.rented_equipment_cost_per_day
  else if equipment_type = "owned" then a.owned_equipment_om_cost_per_day
  else a.no_equipment_cost_per_day

/-- Maximum of a non-empty rational list, Python max(...); 0 for the
empty list (callers guard non-emptiness as the source does). -/
def ratMaxOfList : List ℚ → ℚ
  | [] => 0
  | x :: xs => xs.foldl max x

/-- Truthiness of the parallel_group field: Python if activity.get(pg)
is false for both a missing key and an empty list. -/
def groupTruthy (a : Activity) : Option (List ParallelMember) :=
  match a.parallel_group with
  | some (m :: ms) => some (m :: ms)
  | _ => none

/-- Delay-score else-branch of `calculate_score` (src/app.py lines
321-349), reached when the free-float exemption does not fire.  Grouped
activities score proportionally to the maximum total_delay_cost_per_day
among group members that are not inside their own free float; ungrouped
activities use the fixed divisor 1000. -/
def delay_score_of (a : Activity) : ℚ :=
  match groupTruthy a with
  | some group =>
    let eff := group.filter
      (fun m => m.free_float == 0 || decide (m.free_float < m.current_delay))
    match eff with
    | [] => 0
    | e :: es =>
      let mx := ratMaxOfList ((e :: es).map (·.total_delay_cost_per_day))
      if 0 < mx then round2 (a.total_delay_cost_per_day * 35 / mx) else 0
  | none =>
    if 0 < a.total_delay_cost_per_day
    then min 35 (a.total_delay_cost_per_day / 1000 * 35)
    else 35

/-- Equipment-score block of `calculate_score` (src/app.py lines 351-369). -/
def equipment_score_of (a : Activity) : ℚ :=
  let et := a.equipment_type.getD "owned"
  if et = "rented" then 25
  else if et = "owned" then
    (if 0 < a.rented_equipment_cost_per_day
     then a.owned_equipment_om_cost_per_day / a.rented_equipment_cost_per_day * 25
     else 0)
  else 0

/-- Manpower-score block of `calculate_score` (src/app.py lines 371-390):
7 points skilled, 5 semi-skilled, 3 unskilled, each ratio capped at 1. -/
def manpower_score_of (a : Activity) : ℚ :=
  let sk := if 0 < a.skilled_manpower
    then min 1 ((a.available_skilled.getD a.skilled_manpower) / a.skilled_manpower) else 0
  let ssk := if 0 < a.semi_skilled_manpower
    then min 1 ((a.available_semi_skilled.getD a.semi_skilled_manpower) / a.semi_skilled_manpower) else 0
  let usk := if 0 < a.unskilled_manpower
    then min 1 ((a.available_unskilled.getD a.unskilled_manpower) / a.unskilled_manpower) else 0
  sk * 7 + ssk * 5 + usk * 3

/-- Critical-path-score block of `calculate_score` (src/app.py lines
398-418): 15 when the id is in the hard-coded list, 10 when close to it,
15 when every parallel-group member id is in the list, else 0. -/
def critical_score_of (a : Activity) : ℚ :=
  if is_activity_critical a [] then 15
  else if is_activity_close_to_critical a [] then 10
  else match groupTruthy a with
    | some group => if group.all (fun m => idIsCritical m.id) then 15 else 0
    | none => 0

/-- calculate_score (src/app.py lines 289-456), returning the breakdown
together with the activity as mutated by the call (the source writes
base_delay_cost_per_day always, and zeroes total_delay_cost_per_day in
the free-float exemption branch).  When planned_manpower is 0 the Python
division available/planned raises, the handler returns the default
breakdown, and no mutation has happened yet.  The parameters
delay_cost_per_day, max_delay_cost_per_day and is_first_in_parallel are
accepted and never read, exactly as in the source body. -/
def calculate_score (material : ℚ) (equipment : String) (manpower_ratio : ℚ)
    (delay_cost_per_day max_delay_cost_per_day : ℚ) (is_first_in_parallel : Bool)
    (activity : Option Activity) : ScoreBreakdown × Option Activity :=
  match activity with
  | none =>
    let delay_score : ℚ := 0
    let equipment_score : ℚ := 0
    let manpower_score : ℚ := manpower_ratio * 15
    let material_score : ℚ := material * 10
    let critical_path_score : ℚ := 0
    let total := delay_score + equipment_score + manpower_score
      + material_score + critical_path_score
    ({ total_score := round2 total, delay_score := round2 delay_score,
       equipment_score := round2 equipment_score,
       manpower_score := round2 manpower_score,
       material_score := round2 material_score,
       critical_path_score := round2 critical_path_score,
       weights := theWeights }, none)
  | some a0 =>
    if a0.planned_manpower = 0 then (defaultScoreBreakdown, some a0)
    else
      let available := a0.available_manpower.getD a0.planned_manpower
      let mratio := available / a0.planned_manpower
      let base_mp := a0.manpower_cost_per_day * mratio
      let et := a0.equipment_type.getD "owned"
      let eqc := get_equipment_cost a0 et
      let base := base_mp + eqc
      let a1 := { a0 with base_delay_cost_per_day := base }
      let ff := a1.free_float.getD 0
      let cd := a1.current_delay.getD 0
      let exempt := 0 < ff ∧ cd ≤ ff
      let a2 := if exempt then { a1 with total_delay_cost_per_day := 0 } else a1
      let delay_score : ℚ := if exempt then 0 else delay_score_of a1
      let equipment_score := equipment_score_of a1
      let manpower_score := manpower_score_of a1
      let material_score := material * 10
      let critical_path_score := critical_score_of a1
      let total := delay_score + equipment_score + manpower_score
        + material_score + critical_path_score
      ({ total_score := round2 total, delay_score := round2 delay_score,
         equipment_score := round2 equipment_score,
         manpower_score := round2 manpower_score,
         material_score := round2 material_score,
         critical_path_score := round2 critical_path_score,
         weights := theWeights }, some a2)

/-- One iteration of the loop of update_activity_delay_costs (src/app.py
lines 868-908): recompute the base daily cost, then add full site
overhead for hard-coded-critical activities, half overhead for
close-to-critical delayed activities, none otherwise.  For
planned_manpower = 0 the Python division raises and the surrounding
handler abandons the whole loop; theorems use this only with
planned_manpower not 0. -/
def update_delay_cost_single (a : Activity) : Activity :=
  let available := a.available_manpower.getD a.planned_manpower
  let mratio := available / a.planned_manpower
  let base_mp := a.manpower_cost_per_day * mratio
  let et := a.equipment_type.getD "owned"
  let eqc := get_equipment_cost a et
  let base := base_mp + eqc
  let crit := is_activity_critical a []
  let close := is_activity_close_to_critical a []
  let total :=
    if crit then base + a.site_overhead_cost_per_day
    else if close && a.is_delayed then base + a.site_overhead_cost_per_day * (1 / 2)
    else base
  { a with base_delay_cost_per_day := base, total_delay_cost_per_day := total,
           is_critical := crit, is_close_to_critical := close }

/-- Summary cost block of the index route (src/app.py lines 1150-1165,
repeated verbatim at 1504-1519, 1312-1324 and 1583-1595): given the
planned duration, per-day cost, recomputed actual duration, delay days
and free float, return (actual_cost, delay_cost). -/
def summary_costs (duration : Int) (per_day_cost : ℚ) (actual_duration delay_days free_float : Int) :
    ℚ × ℚ :=
  let planned : ℚ := (duration : ℚ) * per_day_cost
  if actual_duration < duration then ((actual_duration : ℚ) * per_day_cost, 0)
  else if 0 < free_float ∧ delay_days ≤ free_float then (planned, 0)
  else
    let eff : Int := if 0 < free_float then max 0 (delay_days - free_float) else delay_days
    let actual : ℚ := ((duration + eff : Int) : ℚ) * per_day_cost
    (actual, actual - planned)

/-! CPM forward and backward passes of get_critical_path
(src/app.py lines 666-778).  The Python dicts earliest_start etc. are
modelled as total functions on ids, initialised exactly as the source
initialises its dicts; dict membership tests on dependency ids are tests
against the list of activity ids (the dicts are keyed by exactly those). -/

/-- Pointwise function update, standing for a Python dict assignment. -/
def updFn {α : Type} (f : String → α) (x : String) (v : α) : String → α :=
  fun y => if y = x then v else f y

/-- Python max over a non-empty integer list; 0 for the empty list
(reaching it with an empty list models the source raising, and the
source only evaluates it on non-empty data). -/
def intMaxOfList : List Int → Int
  | [] => 0
  | x :: xs => xs.foldl max x

/-- Python min over an integer list, none standing for the initial
float('inf') that survives an empty loop. -/
def intMinOfList : List Int → Option Int
  | [] => none
  | x :: xs => some (xs.foldl min x)

/-- One forward-pass iteration (src/app.py lines 698-707): dependencies
missing from the id universe are skipped; with dependencies the early
start is max(max dependency early finish + 1, start_day), without them
it is start_day; early finish is early start + duration - 1. -/
def forwardStep (ids : List String) (st : (String → Int) × (String → Int)) (a : Activity) :
    (String → Int) × (String → Int) :=
  let es := st.1
  let ef := st.2
  let s : Int :=
    if a.dependency_ids.isEmpty then a.start_day
    else
      let m := a.dependency_ids.foldl
        (fun m d => if d ∈ ids then max m (ef d) else m) 0
      max (m + 1) a.start_day
  (updFn es a.id s, updFn ef a.id (s + a.duration - 1))

/-- Forward pass over the activity list in list order. -/
def forwardPass (acts : List Activity) : (String → Int) × (String → Int) :=
  acts.foldl (forwardStep (acts.map (·.id))) (fun _ => 0, fun _ => 0)

def earliestStart (acts : List Activity) : String → Int := (forwardPass acts).1

def earliestFinish (acts : List Activity) : String → Int := (forwardPass acts).2

/-- project_duration = max(earliest_finish.values()) (src/app.py line 710). -/
def projectDuration (acts : List Activity) : Int :=
  intMaxOfList (acts.map (fun a => earliestFinish acts a.id))

/-- reverse_deps (src/app.py lines 715-720): for each activity, append
its id to the successor list of each of its dependencies. -/
def revDeps (acts : List Activity) : String → List String :=
  acts.foldl
    (fun m a => a.dependency_ids.foldl (fun m d => updFn m d (m d ++ [a.id])) m)
    (fun _ => [])

/-- One backward-pass iteration (src/app.py lines 722-733): activities
with no recorded successors get late finish = project duration, the
others min(successor late start) - 1; late start is late finish -
duration + 1. -/
def backwardStep (pd : Int) (revd : String → List String)
    (st : (String → Int) × (String → Int)) (a : Activity) :
    (String → Int) × (String → Int) :=
  let lf := st.1
  let ls := st.2
  let lfv : Int :=
    if revd a.id = [] then pd
    else
      match intMinOfList ((revd a.id).map ls) with
      | some m => m - 1
      | none => pd
  (updFn lf a.id lfv, updFn ls a.id (lfv - a.duration + 1))

/-- Backward pass over the reversed activity list; the dicts are
initialised to project duration (late finish) and 0 (late start) as in
src/app.py lines 711-712. -/
def backwardPass (acts : List Activity) : (String → Int) × (String → Int) :=
  acts.reverse.foldl (backwardStep (projectDuration acts) (revDeps acts))
    (fun _ => projectDuration acts, fun _ => 0)

def latestFinish (acts : List Activity) : String → Int := (backwardPass acts).1

def latestStart (acts : List Activity) : String → Int := (backwardPass acts).2

/-- total_float written onto each activity: late start - early start,
clamped to be non-negative (src/app.py lines 741 and 756). -/
def totalFloat (acts : List Activity) (a : Activity) : Int :=
  max 0 (latestStart acts a.id - earliestStart acts a.id)

/-- Successor records used for free float (src/app.py line 744): the
activities with a non-empty dependency list containing this id. -/
def successorsOf (acts : List Activity) (a : Activity) : List Activity :=
  acts.filter (fun b => !b.dependency_ids.isEmpty && b.dependency_ids.contains a.id)

/-- free_float written onto each activity (src/app.py lines 743-757):
min successor early start - early finish - 1 with successors, project
duration - early finish without, clamped to be non-negative. -/
def freeFloat (acts : List Activity) (a : Activity) : Int :=
  let s := successorsOf acts a
  let raw : Int :=
    if s.isEmpty then projectDuration acts - earliestFinish acts a.id
    else
      match intMinOfList (s.map (fun b => earliestStart acts b.id)) with
      | some m => m - earliestFinish acts a.id - 1
      | none => 0
  max 0 raw

/-- Ids of the critical path built by get_critical_path (src/app.py
lines 677-684): the hard-coded sequence filtered by presence in the
activity set, in sequence order; the computed floats play no part. -/
def get_critical_path_ids (acts : List Activity) : List String :=
  critical_path_sequence.filter (fun i => (acts.map (·.id)).contains i)

/-- Validity of the activity list for the list-order CPM passes: every
dependency id refers to an activity that occurs strictly earlier in the
list.  This is the topological-order precondition stated in the spec. -/
def depsEarlier : List String → List Activity → Bool
  | _, [] => true
  | seen, a :: rest =>
    a.dependency_ids.all (fun d => decide (d ∈ seen)) && depsEarlier (a.id :: seen) rest

/-- Reverse-topological form of the same validity condition, as consumed
by the backward pass: walking the reversed list, every recorded
successor of an activity has already been walked. -/
def succsEarlier (revd : String → List String) : List String → List Activity → Bool
  | _, [] => true
  | seen, a :: rest =>
    (revd a.id).all (fun x => decide (x ∈ seen)) && succsEarlier revd (a.id :: seen) rest

/-! Readiness resolver (src/app.py lines 489-523). -/

/-- Completion ledger: activity id to recorded completion day. -/
abbrev Ledger := List (String × Int)

/-- Dict lookup in the ledger. -/
def ledLookup (led : Ledger) (i : String) : Option Int :=
  (led.find? (fun p => p.1 == i)).map (·.2)

/-- Activity completed on or before the given day (the skip condition of
get_ready_activities, src/app.py line 493). -/
def completedOnOrBefore (led : Ledger) (day : Int) (i : String) : Bool :=
  match ledLookup led i with
  | some c => decide (c ≤ day)
  | none => false

/-- Side effect applied to each returned activity (src/app.py lines
499 and 517): available_manpower defaults to planned_manpower. -/
def setAvail (a : Activity) : Activity :=
  { a with available_manpower := some a.planned_manpower }

/-- get_ready_activities (src/app.py lines 489-523). -/
def get_ready_activities (acts : List Activity) (led : Ledger) (day : Int) : List Activity :=
  acts.filterMap (fun a =>
    if completedOnOrBefore led day a.id then none
    else if a.dependency_ids.isEmpty then
      (if a.start_day ≤ day then some (setAvail a) else none)
    else if a.dependency_ids.all (fun d => (ledLookup led d).isSome) then
      (let m := intMaxOfList (a.dependency_ids.map (fun d => (ledLookup led d).getD 0))
       if m + 1 ≤ day ∧ a.start_day ≤ day then some (setAvail a) else none)
    else none)

/-- Readiness predicate written from the claim's words: not completed on
or before the day, every dependency in the ledger, day at least the
maximum dependency completion day + 1 (when there are dependencies),
and day at least the planned start day. -/
def readyClaimB (led : Ledger) (day : Int) (a : Activity) : Bool :=
  !completedOnOrBefore led day a.id
    && a.dependency_ids.all (fun d => (ledLookup led d).isSome)
    && (a.dependency_ids.isEmpty
        || decide (intMaxOfList (a.dependency_ids.map (fun d => (ledLookup led d).getD 0)) + 1 ≤ day))
    && decide (a.start_day ≤ day)

/-! Sequence optimizer (src/app.py lines 115-212).  The enumeration is
stateful: calculate_sequence_cost calls calculate_score on each activity
dict, and calculate_score zeroes the stored total_delay_cost_per_day of
any activity inside its positive free float; the dicts are shared across
permutations, so the zeroing persists into later permutations.  The
state threaded below is the current stored total_delay_cost_per_day of
each id; all other fields read by the cost computation are immutable
during the enumeration. -/

/-- Selections of one element from a list, in position order, each
paired with the remaining elements in their original order. -/
def selections {α : Type} : List α → List (α × List α)
  | [] => []
  | x :: xs => (x, xs) :: (selections xs).map (fun p => (p.1, x :: p.2))

/-- Permutation enumeration with a fuel argument equal to the list
length (structural recursion). -/
def permsAux {α : Type} : Nat → List α → List (List α)
  | 0, _ => [[]]
  | n + 1, l => (selections l).flatMap (fun p => (permsAux n p.2).map (fun q => p.1 :: q))

/-- All permutations of a list in itertools order: element i first,
followed by the permutations of the list with position i removed. -/
def perms {α : Type} (l : List α) : List (List α) := permsAux l.length l

/-- get_all_sequences (src/app.py lines 167-175): permutations of the
activity ids. -/
def get_all_sequences (acts : List Activity) : List (List String) :=
  perms (acts.map (·.id))

/-- activity_dict = a Python dict comprehension over the list: on
duplicate ids the later entry wins. -/
def activityDict (acts : List Activity) (i : String) : Option Activity :=
  acts.foldl (fun r a => if a.id = i then some a else r) none

/-- Condition under which the calculate_score call made for an activity
during cost evaluation zeroes its stored total_delay_cost_per_day: the
call does not hit the planned_manpower = 0 error branch, the free float
is positive and the current delay is inside it (src/app.py lines 314-320). -/
def mutCond (a : Activity) : Bool :=
  !(a.planned_manpower == 0)
    && decide (0 < a.free_float.getD 0)
    && decide (a.current_delay.getD 0 ≤ a.free_float.getD 0)

/-- State effect of the calculate_score call made for one sequence
element. -/
def stepMut (acts : List Activity) (σ : String → ℚ) (i : String) : String → ℚ :=
  match activityDict acts i with
  | some a => if mutCond a then updFn σ i 0 else σ
  | none => σ

/-- Delay charge of one non-first sequence element (src/app.py lines
134-138): (current day - start day) times the currently stored
total_delay_cost_per_day, when that difference is positive. -/
def chargeOf (day : Int) (a : Activity) (c : ℚ) : ℚ :=
  if 0 < day - a.start_day then ((day - a.start_day : Int) : ℚ) * c else 0

/-- calculate_sequence_cost (src/app.py lines 115-165), projected to the
total cost and the resulting stored-cost state; the per-activity score
list it also builds does not feed the cost or the best-sequence choice
and is omitted.  An empty activity list makes the Python max() raise
before any mutation (handler returns cost 0); a sequence id missing from
the dict would raise mid-loop, which cannot happen for sequences drawn
from the activity ids, and is modelled as cost 0 with no mutation. -/
def seqCostSt (acts : List Activity) (day : Int) (σ : String → ℚ) :
    List String → ℚ × (String → ℚ)
  | [] => (0, σ)
  | i0 :: rest =>
    if acts.isEmpty then (0, σ)
    else if (i0 :: rest).all (fun i => (activityDict acts i).isSome) then
      rest.foldl
        (fun (st : ℚ × (String → ℚ)) i =>
          let c := match activityDict acts i with
            | some a => st.1 + chargeOf day a (st.2 i)
            | none => st.1
          (c, stepMut acts st.2 i))
        (0, stepMut acts σ i0)
    else (0, σ)

/-- One SequenceOption (src/app.py lines 192-197). -/
structure SeqOption where
  sequence : List String
  total_delay_cost : ℚ
  is_best : Bool
deriving DecidableEq

/-- Best-tracking step of find_best_sequence (src/app.py lines 199-201):
the running best is replaced only on a strict cost improvement. -/
def cbStep (acc : Option (List String × ℚ)) (o : SeqOption) : Option (List String × ℚ) :=
  match acc with
  | none => some (o.sequence, o.total_delay_cost)
  | some (bs, mc) =>
    if o.total_delay_cost < mc then some (o.sequence, o.total_delay_cost) else some (bs, mc)

/-- Marking loop of find_best_sequence (src/app.py lines 204-207): mark
the first option whose sequence equals the best sequence, then stop. -/
def markFirst : List SeqOption → List String → List SeqOption
  | [], _ => []
  | o :: rest, bs =>
    if o.sequence = bs then { o with is_best := true } :: rest
    else o :: markFirst rest bs

/-- Stored total_delay_cost_per_day of each id at the start of the
enumeration (the value held by the shared activity dicts). -/
def storedCost (acts : List Activity) : String → ℚ := fun i =>
  match activityDict acts i with
  | some a => a.total_delay_cost_per_day
  | none => 0

/-- One iteration of the enumeration loop of find_best_sequence
(src/app.py lines 190-201): cost the permutation in the current state,
append its option, update the running best on strict improvement, and
carry the mutated state to the next permutation. -/
def fbsStep (acts : List Activity) (day : Int)
    (st : List SeqOption × Option (List String × ℚ) × (String → ℚ)) (s : List String) :
    List SeqOption × Option (List String × ℚ) × (String → ℚ) :=
  let cσ := seqCostSt acts day st.2.2 s
  (st.1 ++ [{ sequence := s, total_delay_cost := cσ.1, is_best := false }],
   cbStep st.2.1 { sequence := s, total_delay_cost := cσ.1, is_best := false },
   cσ.2)

/-- find_best_sequence (src/app.py lines 177-212).  Empty input returns
([], 0, []).  Otherwise every permutation is costed in enumeration order
with the stored-cost state threaded through, the minimum-cost sequence
(first encountered on ties) is selected, and the matching option is
marked.  The none branch of the final match is unreachable for
non-empty input. -/
def find_best_sequence (acts : List Activity) (day : Int) :
    List String × ℚ × List SeqOption :=
  if acts.isEmpty then ([], 0, [])
  else
    let r := (get_all_sequences acts).foldl (fbsStep acts day) ([], none, storedCost acts)
    match r.2.1 with
    | some (bs, mc) => (bs, mc, markFirst r.1 bs)
    | none => ([], 0, r.1)

/-- Final threaded state after costing a list of permutations. -/
def finalSigma (acts : List Activity) (day : Int) : (String → ℚ) → List (List String) → (String → ℚ)
  | σ, [] => σ
  | σ, s :: ss => finalSigma acts day (seqCostSt acts day σ s).2 ss

/-- Options list produced by the enumeration fold, in recursive form
(used to reason about find_best_sequence). -/
def optsFrom (acts : List Activity) (day : Int) : (String → ℚ) → List (List String) → List SeqOption
  | _, [] => []
  | σ, s :: ss =>
    let cσ := seqCostSt acts day σ s
    { sequence := s, total_delay_cost := cσ.1, is_best := false } :: optsFrom acts day cσ.2 ss

/-- First minimum of an option list: the pair (sequence, cost) of the
earliest option attaining the minimal cost. -/
def firstMin : List SeqOption → Option (List String × ℚ)
  | [] => none
  | o :: rest =>
    match firstMin rest with
    | none => some (o.sequence, o.total_delay_cost)
    | some (bs, mc) =>
      if mc < o.total_delay_cost then some (bs, mc)
      else some (o.sequence, o.total_delay_cost)

/-- Sequence cost as worded by the claim: the first activity is charged
zero, each subsequent activity (current day - its planned start day)
times its total_delay_cost_per_day when that difference is positive. -/
def specSequenceCost (acts : List Activity) (day : Int) : List String → ℚ
  | [] => 0
  | _ :: rest =>
    (rest.map (fun i =>
      match activityDict acts i with
      | some a => chargeOf day a a.total_delay_cost_per_day
      | none => 0)).sum

/-! Concrete activity records used by witnesses and counterexamples. -/

/-- Neutral activity record; concrete inputs override the relevant fields. -/
def blankActivity : Activity :=
  { id := "", name := "", duration := 1, planned_manpower := 1,
    skilled_manpower := 0, semi_skilled_manpower := 0, unskilled_manpower := 0,
    start_day := 1, dependency_ids := [],
    manpower_cost_per_day := 0, rented_equipment_cost_per_day := 0,
    owned_equipment_om_cost_per_day := 0, no_equipment_cost_per_day := 0,
    total_delay_cost_per_day := 0, site_overhead_cost_per_day := 0,
    base_delay_cost_per_day := 0,
    free_float := none, current_delay := none,
    available_manpower := none, available_skilled := none,
    available_semi_skilled := none, available_unskilled := none,
    equipment_type := none, parallel_group := none,
    is_delayed := false, is_critical := false, is_close_to_critical := false }

/-- C1 failing input, first activity: id A1, no dependencies, 1 day. -/
def actA1 : Activity := { blankActivity with id := "A1", duration := 1 }

/-- C1 failing input, second activity: id B1, no dependencies, 3 days. -/
def actB1 : Activity := { blankActivity with id := "B1", duration := 3 }

/-- C2 counterexample activity P: positive free float, stored cost 100. -/
def actP : Activity :=
  { blankActivity with
    id := "P", total_delay_cost_per_day := 100, free_float := some 2 }

/-- C2 counterexample activity Q: zero free float, stored cost 50. -/
def actQ : Activity :=
  { blankActivity with id := "Q", total_delay_cost_per_day := 50, free_float := some 0 }

/-- C2 witness activity X: no free float recorded, stored cost 10. -/
def actX : Activity :=
  { blankActivity with id := "X", total_delay_cost_per_day := 10 }

/-- C2 witness activity Y: zero free float, stored cost 5. -/
def actY : Activity :=
  { blankActivity with id := "Y", total_delay_cost_per_day := 5, free_float := some 0 }

/-- C3 witness activity: free_float 3, current_delay 2, stored cost 800. -/
def actC3 : Activity :=
  { blankActivity with
    id := "W3", total_delay_cost_per_day := 800,
    free_float := some 3, current_delay := some 2 }

/-- C3 counterexample activity: free_float 0, current_delay 0, stored
cost 500, no parallel group. -/
def actC3x : Activity :=
  { blankActivity with
    id := "X3", total_delay_cost_per_day := 500,
    free_float := some 0, current_delay := some 0 }

/-- C4 witness activity: in a parallel group with members of stored
costs 200 and 400 outside their free float, own stored cost 200. -/
def actC4 : Activity :=
  { blankActivity with
    id := "W4", total_delay_cost_per_day := 200,
    parallel_group := some
      [{ id := "G1", name := "", total_delay_cost_per_day := 200,
         free_float := 0, current_delay := 0 },
       { id := "G2", name := "", total_delay_cost_per_day := 400,
         free_float := 0, current_delay := 0 }] }

/-- C4 counterexample activity: ungrouped, stored cost 600. -/
def actC4x : Activity :=
  { blankActivity with id := "X4", total_delay_cost_per_day := 600 }

/-- C9 witness activity: id A, a substring of the listed id A1, with no
dependencies at all, delayed, with site overhead 900. -/
def actC9 : Activity :=
  { blankActivity with
    id := "A", is_delayed := true,
    site_overhead_cost_per_day := 900 }

/-- C10 witness activity: planned_manpower 0 makes the manpower-ratio
division fail inside calculate_score. -/
def actC10 : Activity := { blankActivity with id := "Z", planned_manpower := 0 }

/-- C5/C6 witness, first activity: the spec example A with no
dependencies, start day 1, duration 2. -/
def actCpmA : Activity := { blankActivity with id := "A", duration := 2 }

/-- C5/C6 witness, second activity: the spec example B depending on A,
start day 3, duration 3. -/
def actCpmB : Activity :=
  { blankActivity with
    id := "B", duration := 3, start_day := 3,
    dependency_ids := ["A"] }

/-- C8 witness activity: one dependency D1, start day 1. -/
def actC8 : Activity :=
  { blankActivity with id := "R", dependency_ids := ["D1"] }

/-- C8 witness ledger: D1 completed on day 1, R itself completed on day 3. -/
def ledC8 : Ledger := [("D1", 1), ("R", 3)]

/-! Helper lemmas. -/

theorem ratFloorZ_eq_floor (q : ℚ) : ratFloorZ q = ⌊q⌋ := Rat.floor_def.symm

theorem roundHalfEvenZ_intCast (n : ℤ) : roundHalfEvenZ ((n : ℤ) : ℚ) = n := by
  simp [roundHalfEvenZ, ratFloorZ_eq_floor]

theorem round2_zero : round2 0 = 0 := by
  norm_num [round2, roundHalfEvenZ, ratFloorZ]

theorem round2_idem (q : ℚ) : round2 (round2 q) = round2 q := by
  unfold round2
  have h : ((roundHalfEvenZ (q * 100) : ℤ) : ℚ) / 100 * 100 = ((roundHalfEvenZ (q * 100) : ℤ) : ℚ) := by
    field_simp
  rw [h, roundHalfEvenZ_intCast]

/-- Free-float exemption test of `calculate_score`, as a reusable
abbreviation for statements. -/
def exemptCond (a : Activity) : Prop :=
  0 < a.free_float.getD 0 ∧ a.current_delay.getD 0 ≤ a.free_float.getD 0

instance (a : Activity) : Decidable (exemptCond a) := by
  unfold exemptCond
  infer_instance

theorem calculate_score_delay_eq (a : Activity) (hpm : a.planned_manpower ≠ 0)
    (m : ℚ) (et : String) (mr d md : ℚ) (f : Bool) :
    (calculate_score m et mr d md f (some a)).1.delay_score =
      round2 (if exemptCond a then 0 else delay_score_of a) := by
  simp only [calculate_score]
  rw [if_neg hpm]
  rfl

theorem calculate_score_critical_eq (a : Activity) (hpm : a.planned_manpower ≠ 0)
    (m : ℚ) (et : String) (mr d md : ℚ) (f : Bool) :
    (calculate_score m et mr d md f (some a)).1.critical_path_score =
      round2 (critical_score_of a) := by
  simp only [calculate_score]
  rw [if_neg hpm]
  rfl

theorem calculate_score_mutation_eq (a : Activity) (hpm : a.planned_manpower ≠ 0)
    (m : ℚ) (et : String) (mr d md : ℚ) (f : Bool) :
    ((calculate_score m et mr d md f (some a)).2.map (·.total_delay_cost_per_day)) =
      some (if exemptCond a then 0 else a.total_delay_cost_per_day) := by
  simp only [calculate_score]
  rw [if_neg hpm]
  by_cases h : exemptCond a
  · rw [if_pos h]
    simp only [exemptCond] at h
    simp [if_pos h]
  · rw [if_neg h]
    simp only [exemptCond] at h
    simp [if_neg h]

/-! Claim theorems. -/

/-- C10: calculate_score never raises; an activity with
planned_manpower = 0 makes the manpower-ratio division fail, and the
handler returns the fixed breakdown total 50.0 / delay 17.5 /
equipment 0 / manpower 7.5 / material 5.0 / critical path 7.5, with the
activity left unmodified. -/
theorem c10_error_default_breakdown (a : Activity) (m : ℚ) (et : String)
    (mr d md : ℚ) (f : Bool) (h : a.planned_manpower = 0) :
    calculate_score m et mr d md f (some a) =
      ({ total_score := 50, delay_score := 35 / 2, equipment_score := 0,
         manpower_score := 15 / 2, material_score := 5, critical_path_score := 15 / 2,
         weights := theWeights }, some a) := by
  simp [calculate_score, h, defaultScoreBreakdown]

/-- Witness for C10 at the concrete activity actC10. -/
theorem c10_error_default_breakdown_witness :
    actC10.planned_manpower = 0 ∧
      calculate_score 1 "owned" 1 0 0 false (some actC10) =
        ({ total_score := 50, delay_score := 35 / 2, equipment_score := 0,
           manpower_score := 15 / 2, material_score := 5, critical_path_score := 15 / 2,
           weights := theWeights }, some actC10) :=
  ⟨rfl, c10_error_default_breakdown actC10 1 "owned" 1 0 0 false rfl⟩

/-- C3 (amended): for every well-formed activity with POSITIVE free
float whose accumulated delay is at most its free float, the scoring
pass forces its delay score and its stored delay cost to zero; and in
the summary cost computation, a delay inside the free float costs
nothing while a delay beyond it is charged for the excess days only. -/
theorem c3_free_float_exemption (a : Activity) (hpm : a.planned_manpower ≠ 0)
    (hff : 0 < a.free_float.getD 0) (hcd : a.current_delay.getD 0 ≤ a.free_float.getD 0) :
    (∀ (m : ℚ) (et : String) (mr d md : ℚ) (f : Bool),
      (calculate_score m et mr d md f (some a)).1.delay_score = 0
        ∧ ((calculate_score m et mr d md f (some a)).2.map (·.total_delay_cost_per_day)) = some 0)
    ∧ (∀ (dur : Int) (pdc : ℚ) (ad dd : Int), ¬ ad < dur →
        dd ≤ a.free_float.getD 0 →
        (summary_costs dur pdc ad dd (a.free_float.getD 0)).2 = 0)
    ∧ (∀ (dur : Int) (pdc : ℚ) (ad dd : Int), ¬ ad < dur →
        a.free_float.getD 0 < dd →
        (summary_costs dur pdc ad dd (a.free_float.getD 0)).2
          = ((dd - a.free_float.getD 0 : Int) : ℚ) * pdc) := by
  refine ⟨fun m et mr d md f => ?_, fun dur pdc ad dd had hdd => ?_, fun dur pdc ad dd had hdd => ?_⟩
  · constructor
    · rw [calculate_score_delay_eq a hpm, if_pos ⟨hff, hcd⟩, round2_zero]
    · rw [calculate_score_mutation_eq a hpm, if_pos ⟨hff, hcd⟩]
  · simp only [summary_costs]
    rw [if_neg had, if_pos ⟨hff, hdd⟩]
  · simp only [summary_costs]
    rw [if_neg had, if_neg (by omega : ¬(0 < a.free_float.getD 0 ∧ dd ≤ a.free_float.getD 0)),
      if_pos hff]
    have h1 : max 0 (dd - a.free_float.getD 0) = dd - a.free_float.getD 0 := by omega
    rw [h1]
    push_cast
    ring

/-- Witness for C3 at actC3 (the spec example free_float 3,
current_delay 2). -/
theorem c3_free_float_exemption_witness :
    (actC3.planned_manpower ≠ 0 ∧ 0 < actC3.free_float.getD 0
        ∧ actC3.current_delay.getD 0 ≤ actC3.free_float.getD 0)
      ∧ ((∀ (m : ℚ) (et : String) (mr d md : ℚ) (f : Bool),
            (calculate_score m et mr d md f (some actC3)).1.delay_score = 0
              ∧ ((calculate_score m et mr d md f (some actC3)).2.map (·.total_delay_cost_per_day)) = some 0)
          ∧ (∀ (dur : Int) (pdc : ℚ) (ad dd : Int), ¬ ad < dur →
              dd ≤ actC3.free_float.getD 0 →
              (summary_costs dur pdc ad dd (actC3.free_float.getD 0)).2 = 0)
          ∧ (∀ (dur : Int) (pdc : ℚ) (ad dd : Int), ¬ ad < dur →
              actC3.free_float.getD 0 < dd →
              (summary_costs dur pdc ad dd (actC3.free_float.getD 0)).2
                = ((dd - actC3.free_float.getD 0 : Int) : ℚ) * pdc)) :=
  ⟨⟨by norm_num [actC3, blankActivity], by decide, by decide⟩,
    c3_free_float_exemption actC3 (by norm_num [actC3, blankActivity]) (by decide) (by decide)⟩

/-- Counterexample for C3 as frozen: with free_float = 0 and
current_delay = 0 the accumulated delay is at most the free float, yet
the scoring pass leaves the delay score at 17.5 and the stored delay
cost at 500 — the exemption requires a strictly positive free float. -/
theorem c3_zero_free_float_counterexample :
    actC3x.current_delay.getD 0 ≤ actC3x.free_float.getD 0
      ∧ (calculate_score 1 "owned" 1 0 0 false (some actC3x)).1.delay_score = 35 / 2
      ∧ ((calculate_score 1 "owned" 1 0 0 false (some actC3x)).2.map (·.total_delay_cost_per_day))
          = some 500
      ∧ ((35 : ℚ) / 2 ≠ 0) ∧ ((500 : ℚ) ≠ 0) := by
  refine ⟨by decide, ?_, ?_, by norm_num, by norm_num⟩
  · rw [calculate_score_delay_eq _ (by norm_num [actC3x, blankActivity]), if_neg (by decide)]
    norm_num [delay_score_of, groupTruthy, actC3x, blankActivity, min_def,
      round2, roundHalfEvenZ, ratFloorZ]
  · rw [calculate_score_mutation_eq _ (by norm_num [actC3x, blankActivity]), if_neg (by decide)]
    norm_num [actC3x, blankActivity]

/-- C4 (amended): outside the free-float exemption the delay score is:
for an activity with a non-empty parallel group, 35 times the ratio of
its stored delay cost to the maximum stored delay cost among group
members not inside their own free float, rounded to two decimals (0 if
no such member or the maximum is not positive); for an ungrouped
activity, min(35, cost / 1000 × 35) when the stored cost is positive and
35 otherwise — not a proportion of the maximum over ready activities. -/
theorem c4_delay_score_formula (a : Activity) (hpm : a.planned_manpower ≠ 0)
    (hout : ¬ exemptCond a) (m : ℚ) (et : String) (mr d md : ℚ) (f : Bool) :
    (calculate_score m et mr d md f (some a)).1.delay_score =
      match groupTruthy a with
      | some group =>
        (match group.filter (fun mem => mem.free_float == 0 || decide (mem.free_float < mem.current_delay)) with
         | [] => 0
         | e :: es =>
           if 0 < ratMaxOfList ((e :: es).map (·.total_delay_cost_per_day))
           then round2 (a.total_delay_cost_per_day * 35
                  / ratMaxOfList ((e :: es).map (·.total_delay_cost_per_day)))
           else 0)
      | none =>
        round2 (if 0 < a.total_delay_cost_per_day
                then min 35 (a.total_delay_cost_per_day / 1000 * 35) else 35) := by
  rw [calculate_score_delay_eq a hpm, if_neg hout]
  unfold delay_score_of
  cases hg : groupTruthy a with
  | none => rfl
  | some group =>
    simp only []
    cases he : group.filter (fun mem => mem.free_float == 0 || decide (mem.free_float < mem.current_delay)) with
    | nil => exact round2_zero
    | cons e es =>
      simp only
      by_cases hmx : 0 < ratMaxOfList ((e :: es).map (·.total_delay_cost_per_day))
      · rw [if_pos hmx]
        exact round2_idem _
      · rw [if_neg hmx]
        exact round2_zero

/-- Witness for C4 at the grouped activity actC4 (group maxima 400,
own cost 200, score 17.5). -/
theorem c4_delay_score_formula_witness :
    (actC4.planned_manpower ≠ 0 ∧ ¬ exemptCond actC4)
      ∧ (calculate_score 1 "owned" 1 0 0 false (some actC4)).1.delay_score =
          match groupTruthy actC4 with
          | some group =>
            (match group.filter (fun mem => mem.free_float == 0 || decide (mem.free_float < mem.current_delay)) with
             | [] => 0
             | e :: es =>
               if 0 < ratMaxOfList ((e :: es).map (·.total_delay_cost_per_day))
               then round2 (actC4.total_delay_cost_per_day * 35
                      / ratMaxOfList ((e :: es).map (·.total_delay_cost_per_day)))
               else 0)
          | none =>
            round2 (if 0 < actC4.total_delay_cost_per_day
                    then min 35 (actC4.total_delay_cost_per_day / 1000 * 35) else 35) :=
  ⟨⟨by norm_num [actC4, blankActivity], by decide⟩,
    c4_delay_score_formula actC4 (by norm_num [actC4, blankActivity]) (by decide) 1 "owned" 1 0 0 false⟩

/-- Counterexample for C4 as frozen: the ungrouped activity actC4x with
stored cost 600, in a ready set whose maximum cost is 600, gets delay
score 21 (the fixed-divisor formula), not 35 × (600 / 600) = 35. -/
theorem c4_fixed_divisor_counterexample :
    (calculate_score 1 "owned" 1 600 600 false (some actC4x)).1.delay_score = 21
      ∧ ((21 : ℚ) ≠ 35 * (600 / 600)) := by
  constructor
  · rw [calculate_score_delay_eq _ (by norm_num [actC4x, blankActivity]), if_neg (by decide)]
    norm_num [delay_score_of, groupTruthy, actC4x, blankActivity, min_def,
      round2, roundHalfEvenZ, ratFloorZ]
  · norm_num

/-- C9 (amended): any activity whose id is a substring of some id in the
hard-coded critical-path list is reported close-to-critical by
is_activity_close_to_critical regardless of its dependency structure;
when the id is not itself in the list this yields the 10-point
critical-path score, and when additionally delayed, the half site
overhead surcharge. -/
theorem c9_substring_near_critical (a : Activity) (c : String)
    (hc : c ∈ critical_path_sequence) (hsub : strIn a.id c = true)
    (hnotin : a.id ∉ critical_path_sequence) (hpm : a.planned_manpower ≠ 0)
    (hdel : a.is_delayed = true) :
    is_activity_close_to_critical a [] = true
      ∧ (∀ (m : ℚ) (et : String) (mr d md : ℚ) (f : Bool),
          (calculate_score m et mr d md f (some a)).1.critical_path_score = 10)
      ∧ (update_delay_cost_single a).total_delay_cost_per_day
          = (update_delay_cost_single a).base_delay_cost_per_day
            + a.site_overhead_cost_per_day * (1 / 2) := by
  have hclose : is_activity_close_to_critical a [] = true := by
    simp only [is_activity_close_to_critical, List.any_eq_true]
    exact ⟨c, hc, by simp [hsub]⟩
  have hcrit : is_activity_critical a [] = false := by
    simp only [is_activity_critical, idIsCritical]
    simpa using hnotin
  refine ⟨hclose, fun m et mr d md f => ?_, ?_⟩
  · rw [calculate_score_critical_eq a hpm]
    unfold critical_score_of
    rw [hcrit, hclose]
    norm_num [round2, roundHalfEvenZ, ratFloorZ]
  · simp [update_delay_cost_single, hcrit, hclose, hdel]

/-- Witness for C9 at the concrete activity actC9 whose id A is a
substring of the listed id A1 and which has no dependencies at all. -/
theorem c9_substring_near_critical_witness :
    ("A1" ∈ critical_path_sequence ∧ strIn actC9.id "A1" = true
        ∧ actC9.id ∉ critical_path_sequence ∧ actC9.planned_manpower ≠ 0
        ∧ actC9.is_delayed = true)
      ∧ (is_activity_close_to_critical actC9 [] = true
          ∧ (∀ (m : ℚ) (et : String) (mr d md : ℚ) (f : Bool),
              (calculate_score m et mr d md f (some actC9)).1.critical_path_score = 10)
          ∧ (update_delay_cost_single actC9).total_delay_cost_per_day
              = (update_delay_cost_single actC9).base_delay_cost_per_day
                + actC9.site_overhead_cost_per_day * (1 / 2)) :=
  ⟨⟨by decide, by decide, by decide, by norm_num [actC9, blankActivity], by decide⟩,
    c9_substring_near_critical actC9 "A1" (by decide) (by decide) (by decide)
      (by norm_num [actC9, blankActivity]) (by decide)⟩

/-- Counterexample for C9 as frozen: the claim's example id A1 is a
substring of the listed id A10 and is indeed reported close-to-critical,
but it is itself in the hard-coded list, so it receives the 15-point
critical classification, not the 10-point near-critical one. -/
theorem c9_listed_id_counterexample :
    strIn actA1.id "A10" = true ∧ "A10" ∈ critical_path_sequence
      ∧ is_activity_close_to_critical actA1 [] = true
      ∧ (calculate_score 1 "owned" 1 0 0 false (some actA1)).1.critical_path_score = 15
      ∧ ((15 : ℚ) ≠ 10) := by
  refine ⟨by decide, by decide, by decide, ?_, by norm_num⟩
  have hcrit : is_activity_critical actA1 [] = true := by decide
  rw [calculate_score_critical_eq _ (by norm_num [actA1, blankActivity])]
  unfold critical_score_of
  rw [hcrit]
  norm_num [round2, roundHalfEvenZ, ratFloorZ]

/-- C1: the code classifies criticality by the hard-coded id list, not
by the computed float.  On the two-activity input [actA1, actB1] the
activity A1 has total_float 2 yet is classified critical, B1 has
total_float 0 yet is not, and the extracted critical path is the
hard-coded filter ["A1"], not the zero-float chain. -/
theorem c1_hard_coded_criticality :
    is_activity_critical actA1 [] = true
      ∧ totalFloat [actA1, actB1] actA1 = 2
      ∧ is_activity_critical actB1 [] = false
      ∧ totalFloat [actA1, actB1] actB1 = 0
      ∧ get_critical_path_ids [actA1, actB1] = ["A1"] := by
  decide

/-- One element of the readiness loop emits its activity exactly when
the claim-worded readiness predicate holds. -/
theorem ready_body_eq (led : Ledger) (day : Int) (a : Activity) :
    (if completedOnOrBefore led day a.id then none
     else if a.dependency_ids.isEmpty then
       (if a.start_day ≤ day then some (setAvail a) else none)
     else if a.dependency_ids.all (fun d => (ledLookup led d).isSome) then
       (let m := intMaxOfList (a.dependency_ids.map (fun d => (ledLookup led d).getD 0))
        if m + 1 ≤ day ∧ a.start_day ≤ day then some (setAvail a) else none)
     else none)
    = if readyClaimB led day a then some (setAvail a) else none := by
  by_cases h1 : completedOnOrBefore led day a.id
  · simp [readyClaimB, h1]
  · by_cases h2 : a.dependency_ids.isEmpty
    · have h2' : a.dependency_ids = [] := List.isEmpty_iff.mp h2
      by_cases h3 : a.start_day ≤ day
      · simp [readyClaimB, h1, h2, h2', h3]
      · simp [readyClaimB, h1, h2, h2', h3]
    · by_cases h4 : a.dependency_ids.all (fun d => (ledLookup led d).isSome)
      · by_cases h5 : intMaxOfList (a.dependency_ids.map (fun d => (ledLookup led d).getD 0)) + 1 ≤ day
        · by_cases h6 : a.start_day ≤ day
          · simp [readyClaimB, h1, h2, h4, h5, h6]
          · simp [readyClaimB, h1, h2, h4, h5, h6]
        · simp [readyClaimB, h1, h2, h4, h5]
      · simp [readyClaimB, h1, h2, h4]

/-- A guarded filterMap is a filter followed by a map. -/
theorem filterMap_guarded (p : Activity → Bool) (g : Activity → Activity) (l : List Activity) :
    l.filterMap (fun x => if p x then some (g x) else none) = (l.filter p).map g := by
  induction l with
  | nil => rfl
  | cons x xs ih =>
    by_cases h : p x <;> simp [List.filterMap_cons, List.filter_cons, h, ih]

/-- Characterization of the readiness resolver: it returns exactly the
activities satisfying the claim-worded predicate, each tagged with the
default available manpower.  Helper shared by the readiness claims. -/
theorem get_ready_eq_filter (acts : List Activity) (led : Ledger) (day : Int) :
    get_ready_activities acts led day
      = (acts.filter (readyClaimB led day)).map setAvail := by
  unfold get_ready_activities
  simp only [ready_body_eq]
  exact filterMap_guarded _ _ _

/-- C7: an activity is returned by the readiness resolver exactly when
it is not completed on or before the current day, every dependency
appears in the ledger, the day is at least the maximum dependency
completion day + 1 (vacuous without dependencies), and the day is at
least its planned start day; returned activities carry the default
available manpower. -/
theorem c7_readiness_characterization (acts : List Activity) (led : Ledger) (day : Int) :
    get_ready_activities acts led day
      = (acts.filter (readyClaimB led day)).map setAvail :=
  get_ready_eq_filter acts led day

/-- Fields of an activity are recoverable from its setAvail image. -/
theorem setAvail_inj_fields {b a : Activity} (h : setAvail b = setAvail a) :
    b.id = a.id ∧ b.dependency_ids = a.dependency_ids ∧ b.start_day = a.start_day := by
  refine ⟨?_, ?_, ?_⟩
  · have h' := congrArg Activity.id h
    simpa [setAvail] using h'
  · have h' := congrArg Activity.dependency_ids h
    simpa [setAvail] using h'
  · have h' := congrArg Activity.start_day h
    simpa [setAvail] using h'

/-- C8: if an activity is ready on day D (with a given ledger) then on
every later day, with the ledger unchanged, it is again returned by the
resolver or it is completed on or before that day. -/
theorem c8_readiness_monotonic (acts : List Activity) (led : Ledger) (D Dp : Int)
    (a : Activity) (hmem : setAvail a ∈ get_ready_activities acts led D)
    (hle : D ≤ Dp) :
    setAvail a ∈ get_ready_activities acts led Dp
      ∨ completedOnOrBefore led Dp a.id = true := by
  rw [get_ready_eq_filter] at hmem
  rcases List.mem_map.mp hmem with ⟨b, hbf, hsa⟩
  rcases List.mem_filter.mp hbf with ⟨hbacts, hb⟩
  obtain ⟨hid, hdeps, hstart⟩ := setAvail_inj_fields hsa
  simp only [readyClaimB, Bool.and_eq_true, Bool.not_eq_true', Bool.or_eq_true,
    decide_eq_true_eq, List.all_eq_true] at hb
  obtain ⟨⟨⟨hncomp, hall⟩, hmax⟩, hstartle⟩ := hb
  by_cases hcomp : completedOnOrBefore led Dp a.id = true
  · exact Or.inr hcomp
  · left
    rw [get_ready_eq_filter]
    refine List.mem_map.mpr ⟨b, List.mem_filter.mpr ⟨hbacts, ?_⟩, hsa⟩
    have hncomp' : completedOnOrBefore led Dp b.id = false := by
      rw [hid]
      exact Bool.not_eq_true _ ▸ (Bool.eq_false_iff.mpr hcomp)
    simp only [readyClaimB, Bool.and_eq_true, Bool.not_eq_true', Bool.or_eq_true,
      decide_eq_true_eq, List.all_eq_true]
    refine ⟨⟨⟨hncomp', hall⟩, ?_⟩, by omega⟩
    rcases hmax with h | h
    · exact Or.inl h
    · exact Or.inr (by omega)

/-- Witness for C8: with ledger ledC8 the activity actC8 is ready on
day 2 and on day 3 it is completed (its recorded completion day is 3). -/
theorem c8_readiness_monotonic_witness :
    (setAvail actC8 ∈ get_ready_activities [actC8] ledC8 2 ∧ (2 : Int) ≤ 3)
      ∧ (setAvail actC8 ∈ get_ready_activities [actC8] ledC8 3
          ∨ completedOnOrBefore ledC8 3 actC8.id = true) := by
  have hmem : setAvail actC8 ∈ get_ready_activities [actC8] ledC8 2 := by
    have h : get_ready_activities [actC8] ledC8 2 = [setAvail actC8] := rfl
    rw [h]
    exact List.mem_singleton_self _
  exact ⟨⟨hmem, by norm_num⟩, c8_readiness_monotonic [actC8] ledC8 2 3 actC8 hmem (by norm_num)⟩

/-! Permutation enumeration lemmas. -/

theorem selections_split {α : Type} :
    ∀ (l : List α) (y : α) (ys : List α), (y, ys) ∈ selections l →
      ∃ u v, l = u ++ y :: v ∧ ys = u ++ v := by
  intro l
  induction l with
  | nil => intro y ys h; simp [selections] at h
  | cons x xs ih =>
    intro y ys h
    simp only [selections, List.mem_cons, List.mem_map] at h
    rcases h with h | ⟨p, hp, he⟩
    · obtain ⟨h1, h2⟩ := Prod.mk.injEq .. ▸ h
      exact ⟨[], xs, by simp [h1], by simp [h2]⟩
    · obtain ⟨he1, he2⟩ := Prod.mk.injEq .. ▸ he
      obtain ⟨u, v, h1, h2⟩ := ih p.1 p.2 (by simpa using hp)
      refine ⟨x :: u, v, ?_, ?_⟩
      · simp only [List.cons_append]
        rw [h1, he1]
      · simp only [List.cons_append]
        rw [← he2, h2]

theorem selections_map_fst {α : Type} (l : List α) :
    (selections l).map (·.1) = l := by
  induction l with
  | nil => rfl
  | cons x xs ih => simp [selections, List.map_map, Function.comp_def, ih]

theorem mem_permsAux_subset {α : Type} :
    ∀ (n : Nat) (l : List α) (p : List α), p ∈ permsAux n l → ∀ x ∈ p, x ∈ l := by
  intro n
  induction n with
  | zero =>
    intro l p hp x hx
    simp [permsAux] at hp
    subst hp
    simp at hx
  | succ n ih =>
    intro l p hp x hx
    simp only [permsAux, List.mem_flatMap, List.mem_map] at hp
    obtain ⟨s, hs, q, hq, rfl⟩ := hp
    obtain ⟨u, v, h1, h2⟩ := selections_split l s.1 s.2 (by simpa using hs)
    rcases List.mem_cons.mp hx with rfl | hx
    · rw [h1]; exact List.mem_append_right _ (List.mem_cons_self _ _)
    · have := ih s.2 q hq x hx
      rw [h1]
      rw [h2] at this
      rcases List.mem_append.mp this with h | h
      · exact List.mem_append_left _ h
      · exact List.mem_append_right _ (List.mem_cons_of_mem _ h)

theorem permsAux_ne_nil {α : Type} :
    ∀ (n : Nat) (l : List α), l.length = n → permsAux n l ≠ [] := by
  intro n
  induction n with
  | zero => intro l _; simp [permsAux]
  | succ n ih =>
    intro l hl
    cases l with
    | nil => simp at hl
    | cons x xs =>
      have hx : permsAux n xs ≠ [] := ih xs (by simpa using hl)
      simp only [permsAux, selections, ne_eq, List.flatMap_eq_nil_iff, not_forall]
      refine ⟨(x, xs), List.mem_cons_self _ _, ?_⟩
      simp [hx]

theorem perms_ne_nil {α : Type} (l : List α) : perms l ≠ [] :=
  permsAux_ne_nil l.length l rfl

theorem mem_perms_subset {α : Type} (l : List α) (p : List α) (hp : p ∈ perms l) :
    ∀ x ∈ p, x ∈ l :=
  mem_permsAux_subset l.length l p hp

theorem permsAux_nodup {α : Type} [DecidableEq α] :
    ∀ (n : Nat) (l : List α), l.length = n → l.Nodup → (permsAux n l).Nodup := by
  intro n
  induction n with
  | zero => intro l _ _; simp [permsAux]
  | succ n ih =>
    intro l hl hnd
    simp only [permsAux]
    rw [List.nodup_flatMap]
    constructor
    · intro s hs
      obtain ⟨u, v, h1, h2⟩ := selections_split l s.1 s.2 (by simpa using hs)
      have hlen : s.2.length = n := by
        have := congrArg List.length h1
        simp at this
        simp [h2]
        omega
      have hnds : s.2.Nodup := by
        rw [h2]
        have := h1 ▸ hnd
        exact (List.nodup_middle.mp this).of_cons
      exact (ih s.2 hlen hnds).map (fun a b h => by simpa using h)
    · have hfst := selections_map_fst l
      have : (selections l).Pairwise (fun s t => s.1 ≠ t.1) := by
        have hnd' : ((selections l).map (·.1)).Nodup := by rw [hfst]; exact hnd
        exact (List.pairwise_map.mp hnd')
      refine this.imp ?_
      intro s t hst
      intro p hps hpt
      simp only [List.mem_map] at hps hpt
      obtain ⟨q1, _, hq1⟩ := hps
      obtain ⟨q2, _, hq2⟩ := hpt
      apply hst
      rw [← hq1] at hq2
      exact (List.cons.injEq .. ▸ hq2.symm).1

theorem perms_nodup {α : Type} [DecidableEq α] (l : List α) (h : l.Nodup) :
    (perms l).Nodup :=
  permsAux_nodup l.length l rfl h

/-! Best-tracking and marking lemmas. -/

/-- Combination of an accumulator with the first minimum of the rest:
the rest wins only on a strict improvement. -/
def combineB (acc : Option (List String × ℚ)) :
    Option (List String × ℚ) → Option (List String × ℚ)
  | none => acc
  | some (bs, mc) =>
    match acc with
    | none => some (bs, mc)
    | some (bs0, mc0) => if mc < mc0 then some (bs, mc) else some (bs0, mc0)

theorem foldl_cbStep_eq (l : List SeqOption) :
    ∀ acc, l.foldl cbStep acc = combineB acc (firstMin l) := by
  induction l with
  | nil => intro acc; cases acc <;> rfl
  | cons o rest ih =>
    intro acc
    rw [List.foldl_cons, ih]
    cases acc with
    | none =>
      simp only [cbStep, firstMin, combineB]
      cases hr : firstMin rest with
      | none => rfl
      | some bm =>
        obtain ⟨bs1, mc1⟩ := bm
        by_cases h : mc1 < o.total_delay_cost <;> simp [combineB, h]
    | some bm0 =>
      obtain ⟨bs0, mc0⟩ := bm0
      simp only [cbStep, firstMin]
      cases hr : firstMin rest with
      | none =>
        by_cases h : o.total_delay_cost < mc0 <;> simp [combineB, h]
      | some bm1 =>
        obtain ⟨bs1, mc1⟩ := bm1
        by_cases h1 : mc1 < o.total_delay_cost
        · by_cases h2 : o.total_delay_cost < mc0
          · have h3 : mc1 < mc0 := lt_trans h1 h2
            simp [combineB, h1, h2, h3]
          · simp [combineB, h1, h2]
        · by_cases h2 : o.total_delay_cost < mc0
          · simp [combineB, h1, h2]
          · have h3 : ¬ mc1 < mc0 := by
              push_neg at h1 h2 ⊢
              exact le_trans h2 h1
            simp [combineB, h1, h2, h3]

theorem firstMin_eq_none_iff (l : List SeqOption) : firstMin l = none ↔ l = [] := by
  cases l with
  | nil => simp [firstMin]
  | cons o rest =>
    simp only [firstMin]
    cases firstMin rest with
    | none => simp
    | some bm =>
      obtain ⟨bs, mc⟩ := bm
      by_cases h : mc < o.total_delay_cost <;> simp [h]

theorem firstMin_le (l : List SeqOption) :
    ∀ bs mc, firstMin l = some (bs, mc) → ∀ o ∈ l, mc ≤ o.total_delay_cost := by
  induction l with
  | nil => intro bs mc h; simp [firstMin] at h
  | cons o rest ih =>
    intro bs mc h o2 ho2
    simp only [firstMin] at h
    cases hr : firstMin rest with
    | none =>
      rw [hr] at h
      have hrest : rest = [] := (firstMin_eq_none_iff rest).mp hr
      obtain ⟨rfl, rfl⟩ : bs = o.sequence ∧ mc = o.total_delay_cost := by
        simpa using h.symm
      subst hrest
      rcases List.mem_cons.mp ho2 with rfl | h2
      · exact le_refl _
      · simp at h2
    | some bm =>
      obtain ⟨bs1, mc1⟩ := bm
      rw [hr] at h
      replace h : (if mc1 < o.total_delay_cost then some (bs1, mc1)
          else some (o.sequence, o.total_delay_cost)) = some (bs, mc) := h
      by_cases hlt : mc1 < o.total_delay_cost
      · rw [if_pos hlt] at h
        obtain ⟨rfl, rfl⟩ : bs = bs1 ∧ mc = mc1 := by simpa using h.symm
        rcases List.mem_cons.mp ho2 with rfl | h2
        · exact le_of_lt hlt
        · exact ih bs mc hr o2 h2
      · rw [if_neg hlt] at h
        obtain ⟨rfl, rfl⟩ : bs = o.sequence ∧ mc = o.total_delay_cost := by
          simpa using h.symm
        push_neg at hlt
        rcases List.mem_cons.mp ho2 with rfl | h2
        · exact le_refl _
        · exact le_trans hlt (ih bs1 mc1 hr o2 h2)

theorem firstMin_split (l : List SeqOption) :
    ∀ bs mc, firstMin l = some (bs, mc) →
      ∃ u o v, l = u ++ o :: v ∧ o.sequence = bs ∧ o.total_delay_cost = mc
        ∧ ∀ p ∈ u, mc < p.total_delay_cost := by
  induction l with
  | nil => intro bs mc h; simp [firstMin] at h
  | cons o rest ih =>
    intro bs mc h
    simp only [firstMin] at h
    cases hr : firstMin rest with
    | none =>
      rw [hr] at h
      obtain ⟨rfl, rfl⟩ : bs = o.sequence ∧ mc = o.total_delay_cost := by
        simpa using h.symm
      exact ⟨[], o, rest, rfl, rfl, rfl, by simp⟩
    | some bm =>
      obtain ⟨bs1, mc1⟩ := bm
      rw [hr] at h
      replace h : (if mc1 < o.total_delay_cost then some (bs1, mc1)
          else some (o.sequence, o.total_delay_cost)) = some (bs, mc) := h
      by_cases hlt : mc1 < o.total_delay_cost
      · rw [if_pos hlt] at h
        obtain ⟨rfl, rfl⟩ : bs = bs1 ∧ mc = mc1 := by simpa using h.symm
        obtain ⟨u, o2, v, h1, h2, h3, h4⟩ := ih bs mc hr
        refine ⟨o :: u, o2, v, by rw [h1]; rfl, h2, h3, ?_⟩
        intro p hp
        rcases List.mem_cons.mp hp with rfl | hp2
        · exact hlt
        · exact h4 p hp2
      · rw [if_neg hlt] at h
        obtain ⟨rfl, rfl⟩ : bs = o.sequence ∧ mc = o.total_delay_cost := by
          simpa using h.symm
        exact ⟨[], o, rest, rfl, rfl, rfl, by simp⟩

theorem markFirst_split (bs : List String) :
    ∀ (u : List SeqOption) (o : SeqOption) (v : List SeqOption),
      (∀ p ∈ u, p.sequence ≠ bs) → o.sequence = bs →
      markFirst (u ++ o :: v) bs = u ++ { o with is_best := true } :: v := by
  intro u
  induction u with
  | nil =>
    intro o v _ ho
    simp only [List.nil_append, markFirst]
    rw [if_pos ho]
  | cons p u ih =>
    intro o v hu ho
    simp only [List.cons_append, markFirst, List.append_eq]
    rw [if_neg (hu p (List.mem_cons_self _ _))]
    rw [ih o v (fun q hq => hu q (List.mem_cons_of_mem _ hq)) ho]

/-! Fold specification of find_best_sequence. -/

theorem fbs_fold_spec (acts : List Activity) (day : Int) :
    ∀ (ss : List (List String)) (os : List SeqOption)
      (b : Option (List String × ℚ)) (σ : String → ℚ),
      ss.foldl (fbsStep acts day) (os, b, σ)
        = (os ++ optsFrom acts day σ ss,
           (optsFrom acts day σ ss).foldl cbStep b,
           finalSigma acts day σ ss) := by
  intro ss
  induction ss with
  | nil => intro os b σ; simp [optsFrom, finalSigma]
  | cons s rest ih =>
    intro os b σ
    rw [List.foldl_cons]
    show rest.foldl (fbsStep acts day)
        (os ++ [{ sequence := s, total_delay_cost := (seqCostSt acts day σ s).1, is_best := false }],
         cbStep b { sequence := s, total_delay_cost := (seqCostSt acts day σ s).1, is_best := false },
         (seqCostSt acts day σ s).2) = _
    rw [ih]
    simp only [optsFrom, finalSigma, List.foldl_cons, List.append_assoc,
      List.singleton_append]

/-! Mutation-free evaluation lemmas. -/

theorem activityDict_mem (acts : List Activity) (i : String) :
    ∀ (r : Option Activity) (a : Activity),
      acts.foldl (fun r a => if a.id = i then some a else r) r = some a →
      r = some a ∨ a ∈ acts := by
  induction acts with
  | nil => intro r a h; exact Or.inl h
  | cons x xs ih =>
    intro r a h
    rw [List.foldl_cons] at h
    rcases ih _ a h with h2 | h2
    · by_cases hx : x.id = i
      · rw [if_pos hx] at h2
        right
        obtain rfl : x = a := by simpa using h2
        exact List.mem_cons_self _ _
      · rw [if_neg hx] at h2
        exact Or.inl h2
    · exact Or.inr (List.mem_cons_of_mem _ h2)

theorem activityDict_mem_of_some (acts : List Activity) (i : String) (a : Activity)
    (h : activityDict acts i = some a) : a ∈ acts := by
  rcases activityDict_mem acts i none a h with h2 | h2
  · simp at h2
  · exact h2

theorem stepMut_no_mut (acts : List Activity) (σ : String → ℚ) (i : String)
    (hnm : ∀ a ∈ acts, mutCond a = false) : stepMut acts σ i = σ := by
  unfold stepMut
  cases hd : activityDict acts i with
  | none => rfl
  | some a =>
    have h := hnm a (activityDict_mem_of_some acts i a hd)
    simp [h]

theorem seqCostSt_tail_no_mut (acts : List Activity) (day : Int)
    (hnm : ∀ a ∈ acts, mutCond a = false) (rest : List String) :
    ∀ (σ : String → ℚ) (c : ℚ),
      rest.foldl
        (fun (st : ℚ × (String → ℚ)) i =>
          let c := match activityDict acts i with
            | some a => st.1 + chargeOf day a (st.2 i)
            | none => st.1
          (c, stepMut acts st.2 i))
        (c, σ)
      = (c + (rest.map (fun i =>
            match activityDict acts i with
            | some a => chargeOf day a (σ i)
            | none => 0)).sum, σ) := by
  induction rest with
  | nil => intro σ c; simp
  | cons i rest ih =>
    intro σ c
    rw [List.foldl_cons]
    show rest.foldl _
        ((match activityDict acts i with
          | some a => c + chargeOf day a (σ i)
          | none => c), stepMut acts σ i) = _
    rw [stepMut_no_mut acts σ i hnm]
    cases hd : activityDict acts i with
    | none =>
      simp only [hd]
      rw [ih σ c]
      simp [hd]
    | some a =>
      simp only [hd]
      rw [ih σ (c + chargeOf day a (σ i))]
      simp only [List.map_cons, List.sum_cons, hd, Prod.mk.injEq]
      exact ⟨by ring, trivial⟩

theorem seqCostSt_no_mut (acts : List Activity) (day : Int)
    (s : List String) (hnm : ∀ a ∈ acts, mutCond a = false)
    (hne : ¬ acts.isEmpty) (hres : s.all (fun i => (activityDict acts i).isSome)) :
    seqCostSt acts day (storedCost acts) s
      = (specSequenceCost acts day s, storedCost acts) := by
  cases s with
  | nil => rfl
  | cons i0 rest =>
    simp only [seqCostSt, specSequenceCost]
    rw [if_neg hne, if_pos hres]
    rw [stepMut_no_mut acts (storedCost acts) i0 hnm]
    rw [seqCostSt_tail_no_mut acts day hnm rest (storedCost acts) 0]
    have hfun : (fun i => match activityDict acts i with
        | some a => chargeOf day a (storedCost acts i)
        | none => 0)
        = (fun i => match activityDict acts i with
        | some a => chargeOf day a a.total_delay_cost_per_day
        | none => (0 : ℚ)) := by
      funext i
      cases hd : activityDict acts i with
      | none => simp [hd]
      | some a => simp [hd, storedCost]
    simp [hfun]

theorem optsFrom_map_sequence (acts : List Activity) (day : Int) :
    ∀ (ss : List (List String)) (σ : String → ℚ),
      (optsFrom acts day σ ss).map (·.sequence) = ss := by
  intro ss
  induction ss with
  | nil => intro σ; rfl
  | cons s rest ih => intro σ; simp [optsFrom, ih]

theorem optsFrom_is_best_false (acts : List Activity) (day : Int) :
    ∀ (ss : List (List String)) (σ : String → ℚ) (o : SeqOption),
      o ∈ optsFrom acts day σ ss → o.is_best = false := by
  intro ss
  induction ss with
  | nil => intro σ o h; simp [optsFrom] at h
  | cons s rest ih =>
    intro σ o h
    simp only [optsFrom, List.mem_cons] at h
    rcases h with rfl | h
    · rfl
    · exact ih _ o h

theorem activityDict_isSome_aux (i : String) :
    ∀ (acts : List Activity) (r : Option Activity),
      (r.isSome ∨ i ∈ acts.map (·.id)) →
      (acts.foldl (fun r a => if a.id = i then some a else r) r).isSome := by
  intro acts
  induction acts with
  | nil =>
    intro r h
    rcases h with h | h
    · exact h
    · simp at h
  | cons x xs ih =>
    intro r h
    rw [List.foldl_cons]
    by_cases hx : x.id = i
    · exact ih _ (Or.inl (by rw [if_pos hx]; rfl))
    · rw [if_neg hx]
      rcases h with h | h
      · exact ih r (Or.inl h)
      · simp only [List.map_cons, List.mem_cons] at h
        rcases h with h2 | h2
        · exact absurd h2.symm hx
        · exact ih r (Or.inr h2)

theorem activityDict_isSome (acts : List Activity) (i : String)
    (h : i ∈ acts.map (·.id)) : (activityDict acts i).isSome :=
  activityDict_isSome_aux i acts none (Or.inr h)

theorem optsFrom_no_mut_cost (acts : List Activity) (day : Int)
    (hnm : ∀ a ∈ acts, mutCond a = false) (hne : ¬ acts.isEmpty) :
    ∀ (ss : List (List String)),
      (∀ s ∈ ss, s.all (fun i => (activityDict acts i).isSome)) →
      ∀ o ∈ optsFrom acts day (storedCost acts) ss,
        o.total_delay_cost = specSequenceCost acts day o.sequence := by
  intro ss
  induction ss with
  | nil => intro _ o h; simp [optsFrom] at h
  | cons s rest ih =>
    intro hall o ho
    simp only [optsFrom] at ho
    rw [seqCostSt_no_mut acts day s hnm hne (hall s (List.mem_cons_self _ _))] at ho
    rcases List.mem_cons.mp ho with rfl | ho2
    · rfl
    · exact ih (fun t ht => hall t (List.mem_cons_of_mem _ ht)) o ho2

/-- In a list where exactly the element o of the decomposition
u ++ o :: v is marked best, any decomposition at a marked element is the
same decomposition. -/
theorem marked_prefix_eq :
    ∀ (u' u v v' : List SeqOption) (o x : SeqOption),
      (∀ p ∈ u, p.is_best = false) → (∀ p ∈ v, p.is_best = false) →
      x.is_best = true →
      u ++ o :: v = u' ++ x :: v' → u' = u ∧ x = o := by
  intro u'
  induction u' with
  | nil =>
    intro u v v' o x hu hv hx heq
    cases u with
    | nil =>
      simp only [List.nil_append] at heq
      exact ⟨rfl, (List.cons.injEq .. ▸ heq).1.symm⟩
    | cons p u2 =>
      simp only [List.cons_append, List.nil_append] at heq
      obtain ⟨hpx, _⟩ := List.cons.injEq .. ▸ heq
      rw [← hpx] at hx
      exact absurd hx (by rw [hu p (List.mem_cons_self _ _)]; simp)
  | cons q u2' ih =>
    intro u v v' o x hu hv hx heq
    cases u with
    | nil =>
      simp only [List.nil_append, List.cons_append] at heq
      obtain ⟨rfl, h2⟩ := List.cons.injEq .. ▸ heq
      have hxv : x ∈ v := by
        rw [h2]
        exact List.mem_append_right _ (List.mem_cons_self _ _)
      exact absurd hx (by rw [hv x hxv]; simp)
    | cons p u2 =>
      simp only [List.cons_append] at heq
      obtain ⟨rfl, h2⟩ := List.cons.injEq .. ▸ heq
      obtain ⟨h3, h4⟩ := ih u2 v v' o x
        (fun r hr => hu r (List.mem_cons_of_mem _ hr)) hv hx h2
      exact ⟨by rw [h3], h4⟩

/-- C2 (amended): for every non-empty ready set with distinct ids,
exactly one SequenceOption is marked best; the marked option's cost is
the returned minimum, is at most every option's cost, and every
earlier-enumerated option costs strictly more (ties keep the first
minimum).  When no ready activity is inside a positive free float (so
the scoring pass run during costing never zeroes a stored cost), every
option's cost is the claim's formula: first activity free, each
subsequent activity charged (day - start) x its total_delay_cost_per_day
when positive.  With such zeroing, later permutations are costed against
the mutated stored costs, so the formula holds only for the
first-enumerated permutation. -/
theorem c2_best_sequence (acts : List Activity) (day : Int)
    (hne : acts ≠ []) (hnd : (acts.map (·.id)).Nodup) :
    (((find_best_sequence acts day).2.2.filter (·.is_best)).length = 1)
    ∧ (∀ o ∈ (find_best_sequence acts day).2.2, o.is_best = true →
        o.sequence = (find_best_sequence acts day).1
        ∧ o.total_delay_cost = (find_best_sequence acts day).2.1
        ∧ ∀ o2 ∈ (find_best_sequence acts day).2.2,
            o.total_delay_cost ≤ o2.total_delay_cost)
    ∧ (∀ u x v, (find_best_sequence acts day).2.2 = u ++ x :: v → x.is_best = true →
        ∀ p ∈ u, (find_best_sequence acts day).2.1 < p.total_delay_cost)
    ∧ ((∀ a ∈ acts, mutCond a = false) →
        ∀ o ∈ (find_best_sequence acts day).2.2,
          o.total_delay_cost = specSequenceCost acts day o.sequence) := by
  have hne' : ¬ acts.isEmpty := by simpa [List.isEmpty_iff] using hne
  set seqs := get_all_sequences acts with hseqs
  set opts := optsFrom acts day (storedCost acts) seqs with hopts
  have hr := fbs_fold_spec acts day seqs [] none (storedCost acts)
  have hcb : opts.foldl cbStep none = firstMin opts := by
    rw [foldl_cbStep_eq]
    cases firstMin opts with
    | none => rfl
    | some bm => obtain ⟨bs, mc⟩ := bm; rfl
  have hseq_ne : seqs ≠ [] := by
    rw [hseqs]
    exact perms_ne_nil _
  have hmapseq : opts.map (·.sequence) = seqs := optsFrom_map_sequence acts day seqs _
  have hopts_ne : opts ≠ [] := by
    intro h
    rw [h] at hmapseq
    exact hseq_ne hmapseq.symm
  obtain ⟨bm, hfm⟩ : ∃ bm, firstMin opts = some bm := by
    cases hfm : firstMin opts with
    | none => exact absurd ((firstMin_eq_none_iff opts).mp hfm) hopts_ne
    | some bm => exact ⟨bm, rfl⟩
  obtain ⟨bs, mc⟩ := bm
  have hF : find_best_sequence acts day = (bs, mc, markFirst opts bs) := by
    unfold find_best_sequence
    rw [if_neg hne']
    show (match ((get_all_sequences acts).foldl (fbsStep acts day)
        ([], none, storedCost acts)).2.1 with
      | some (bs, mc) => (bs, mc, markFirst ((get_all_sequences acts).foldl (fbsStep acts day)
          ([], none, storedCost acts)).1 bs)
      | none => ([], 0, ((get_all_sequences acts).foldl (fbsStep acts day)
          ([], none, storedCost acts)).1)) = _
    rw [← hseqs, hr]
    simp only [List.nil_append]
    rw [hcb, hfm]
  obtain ⟨u, o, v, hsplit, hoseq, hocost, hu_gt⟩ := firstMin_split opts bs mc hfm
  have hseq_nd : seqs.Nodup := by
    rw [hseqs]
    exact perms_nodup _ hnd
  have hu_ne_bs : ∀ p ∈ u, p.sequence ≠ bs := by
    intro p hp
    have hnd2 : (opts.map (·.sequence)).Nodup := by rw [hmapseq]; exact hseq_nd
    rw [hsplit] at hnd2
    simp only [List.map_append, List.map_cons] at hnd2
    have := (List.nodup_middle.mp hnd2).not_mem
    intro hcontra
    apply this
    rw [← hoseq] at hcontra
    exact List.mem_append_left _ (List.mem_map.mpr ⟨p, hp, hcontra⟩)
  have hmark : markFirst opts bs = u ++ { o with is_best := true } :: v := by
    rw [hsplit]
    exact markFirst_split bs u o v hu_ne_bs hoseq
  have hmem_opts : ∀ o2, o2 ∈ u ∨ o2 = o ∨ o2 ∈ v → o2 ∈ opts := by
    intro o2 h2
    rw [hsplit]
    rcases h2 with h2 | rfl | h2
    · exact List.mem_append_left _ h2
    · exact List.mem_append_right _ (List.mem_cons_self _ _)
    · exact List.mem_append_right _ (List.mem_cons_of_mem _ h2)
  have hu_false : ∀ p ∈ u, p.is_best = false := fun p hp =>
    optsFrom_is_best_false acts day seqs (storedCost acts) p (hmem_opts p (Or.inl hp))
  have hv_false : ∀ p ∈ v, p.is_best = false := fun p hp =>
    optsFrom_is_best_false acts day seqs (storedCost acts) p (hmem_opts p (Or.inr (Or.inr hp)))
  have hM : (find_best_sequence acts day).2.2 = u ++ { o with is_best := true } :: v := by
    rw [hF]
    exact hmark
  have hmc : (find_best_sequence acts day).2.1 = mc := by rw [hF]
  have hbs : (find_best_sequence acts day).1 = bs := by rw [hF]
  have hmemM : ∀ o2 ∈ u ++ { o with is_best := true } :: v,
      o2 ∈ u ∨ o2 = { o with is_best := true } ∨ o2 ∈ v := by
    intro o2 h2
    rcases List.mem_append.mp h2 with h2 | h2
    · exact Or.inl h2
    · rcases List.mem_cons.mp h2 with h2 | h2
      · exact Or.inr (Or.inl h2)
      · exact Or.inr (Or.inr h2)
  refine ⟨?_, ?_, ?_, ?_⟩
  · rw [hM]
    rw [List.filter_append]
    have h1 : u.filter (·.is_best) = [] := by
      rw [List.filter_eq_nil_iff]
      intro p hp
      simp [hu_false p hp]
    have h2 : v.filter (·.is_best) = [] := by
      rw [List.filter_eq_nil_iff]
      intro p hp
      simp [hv_false p hp]
    rw [h1]
    rw [List.filter_cons]
    simp only [show ({ o with is_best := true } : SeqOption).is_best = true from rfl]
    simp [h2]
  · intro o2 ho2 hbest
    rw [hM] at ho2
    rcases hmemM o2 ho2 with h2 | rfl | h2
    · rw [hu_false o2 h2] at hbest; exact absurd hbest (by simp)
    · refine ⟨by rw [hbs]; exact hoseq, by rw [hmc]; exact hocost, ?_⟩
      intro o3 ho3
      rw [hM] at ho3
      have hcost3 : mc ≤ o3.total_delay_cost ∨ o3 = { o with is_best := true } := by
        rcases hmemM o3 ho3 with h3 | h3 | h3
        · exact Or.inl (firstMin_le opts bs mc hfm o3 (hmem_opts o3 (Or.inl h3)))
        · exact Or.inr h3
        · exact Or.inl (firstMin_le opts bs mc hfm o3 (hmem_opts o3 (Or.inr (Or.inr h3))))
      show ({ o with is_best := true } : SeqOption).total_delay_cost ≤ o3.total_delay_cost
      rcases hcost3 with h3 | rfl
      · show o.total_delay_cost ≤ _
        rw [hocost]
        exact h3
      · exact le_refl _
    · rw [hv_false o2 h2] at hbest; exact absurd hbest (by simp)
  · intro u' x v' hdec hxbest p hp
    rw [hM] at hdec
    obtain ⟨hu'eq, _⟩ := marked_prefix_eq u' u v v' { o with is_best := true } x
      hu_false hv_false hxbest hdec
    rw [hmc]
    exact hu_gt p (by rw [← hu'eq]; exact hp)
  · intro hnm o2 ho2
    rw [hM] at ho2
    have hall : ∀ s ∈ seqs, s.all (fun i => (activityDict acts i).isSome) := by
      intro s hs
      rw [List.all_eq_true]
      intro i hi
      exact activityDict_isSome acts i (mem_perms_subset _ s hs i hi)
    have hcost : ∀ o3 ∈ opts, o3.total_delay_cost = specSequenceCost acts day o3.sequence :=
      fun o3 h3 => optsFrom_no_mut_cost acts day hnm hne' seqs hall o3 h3
    rcases hmemM o2 ho2 with h2 | rfl | h2
    · exact hcost o2 (hmem_opts o2 (Or.inl h2))
    · show ({ o with is_best := true } : SeqOption).total_delay_cost
        = specSequenceCost acts day ({ o with is_best := true } : SeqOption).sequence
      exact hcost o (hmem_opts o (Or.inr (Or.inl rfl)))
    · exact hcost o2 (hmem_opts o2 (Or.inr (Or.inr h2)))

/-- Witness for C2: two ready activities X (cost 10) and Y (cost 5) on
day 2, with no activity inside a positive free float. -/
theorem c2_best_sequence_witness :
    (([actX, actY] : List Activity) ≠ [] ∧ (([actX, actY] : List Activity).map (·.id)).Nodup)
      ∧ ((((find_best_sequence [actX, actY] 2).2.2.filter (·.is_best)).length = 1)
        ∧ (∀ o ∈ (find_best_sequence [actX, actY] 2).2.2, o.is_best = true →
            o.sequence = (find_best_sequence [actX, actY] 2).1
            ∧ o.total_delay_cost = (find_best_sequence [actX, actY] 2).2.1
            ∧ ∀ o2 ∈ (find_best_sequence [actX, actY] 2).2.2,
                o.total_delay_cost ≤ o2.total_delay_cost)
        ∧ (∀ u x v, (find_best_sequence [actX, actY] 2).2.2 = u ++ x :: v → x.is_best = true →
            ∀ p ∈ u, (find_best_sequence [actX, actY] 2).2.1 < p.total_delay_cost)
        ∧ ((∀ a ∈ ([actX, actY] : List Activity), mutCond a = false) →
            ∀ o ∈ (find_best_sequence [actX, actY] 2).2.2,
              o.total_delay_cost = specSequenceCost [actX, actY] 2 o.sequence)) :=
  ⟨⟨List.cons_ne_nil _ _, by decide⟩,
    c2_best_sequence [actX, actY] 2 (List.cons_ne_nil _ _) (by decide)⟩

/-- Counterexample for C2 as frozen: with P (cost 100, free float 2) and
Q (cost 50, zero free float) on day 3, the first permutation P,Q is
costed 100 from the original stored costs, but costing it zeroes P's
stored cost (P is inside its positive free float), so the second
permutation Q,P is costed 0 — while the claim's formula with P's
planned values gives (3 - 1) x 100 = 200. -/
theorem c2_mutated_cost_counterexample :
    (find_best_sequence [actP, actQ] 3).2.2.map (·.total_delay_cost) = [100, 0]
      ∧ specSequenceCost [actP, actQ] 3 ["Q", "P"] = 200
      ∧ (find_best_sequence [actP, actQ] 3).2.2.map (·.sequence) = [["P", "Q"], ["Q", "P"]]
      ∧ ((0 : ℚ) ≠ 200) := by
  refine ⟨?_, ?_, ?_, by norm_num⟩
  · norm_num +decide [find_best_sequence, get_all_sequences, perms, permsAux, selections,
      fbsStep, seqCostSt, stepMut, mutCond, chargeOf, activityDict, storedCost,
      updFn, markFirst, cbStep, firstMin, actP, actQ, blankActivity, List.foldl,
      List.flatMap, List.all, beq_iff_eq]
  · norm_num +decide [specSequenceCost, activityDict, chargeOf, actP, actQ, blankActivity,
      List.foldl]
  · norm_num +decide [find_best_sequence, get_all_sequences, perms, permsAux, selections,
      fbsStep, seqCostSt, stepMut, mutCond, chargeOf, activityDict, storedCost,
      updFn, markFirst, cbStep, firstMin, actP, actQ, blankActivity, List.foldl,
      List.flatMap, List.all, beq_iff_eq]

/-! Integer fold helper lemmas for the CPM passes. -/

theorem foldl_max_ge_init : ∀ (xs : List Int) (m : Int), m ≤ xs.foldl max m := by
  intro xs
  induction xs with
  | nil => intro m; exact le_refl m
  | cons x xs ih =>
    intro m
    rw [List.foldl_cons]
    exact le_trans (le_max_left m x) (ih (max m x))

theorem foldl_max_ge_mem : ∀ (xs : List Int) (m x : Int), x ∈ xs → x ≤ xs.foldl max m := by
  intro xs
  induction xs with
  | nil => intro m x hx; simp at hx
  | cons y ys ih =>
    intro m x hx
    rw [List.foldl_cons]
    rcases List.mem_cons.mp hx with rfl | hx2
    · exact le_trans (le_max_right m x) (foldl_max_ge_init ys _)
    · exact ih _ x hx2

theorem intMaxOfList_ge (l : List Int) (x : Int) (hx : x ∈ l) : x ≤ intMaxOfList l := by
  cases l with
  | nil => simp at hx
  | cons y ys =>
    simp only [intMaxOfList]
    rcases List.mem_cons.mp hx with rfl | hx2
    · exact foldl_max_ge_init ys x
    · exact foldl_max_ge_mem ys y x hx2

theorem foldl_max_mem : ∀ (xs : List Int) (m : Int), xs.foldl max m = m ∨ xs.foldl max m ∈ xs := by
  intro xs
  induction xs with
  | nil => intro m; exact Or.inl rfl
  | cons x xs ih =>
    intro m
    rw [List.foldl_cons]
    rcases ih (max m x) with h | h
    · rw [h]
      rcases max_choice m x with h2 | h2
      · exact Or.inl h2
      · exact Or.inr (by rw [h2]; exact List.mem_cons_self _ _)
    · exact Or.inr (List.mem_cons_of_mem _ h)

theorem intMaxOfList_mem (l : List Int) (h : l ≠ []) : intMaxOfList l ∈ l := by
  cases l with
  | nil => exact absurd rfl h
  | cons y ys =>
    simp only [intMaxOfList]
    rcases foldl_max_mem ys y with h2 | h2
    · rw [h2]; exact List.mem_cons_self _ _
    · exact List.mem_cons_of_mem _ h2

theorem foldl_min_le_init : ∀ (xs : List Int) (m : Int), xs.foldl min m ≤ m := by
  intro xs
  induction xs with
  | nil => intro m; exact le_refl m
  | cons x xs ih =>
    intro m
    rw [List.foldl_cons]
    exact le_trans (ih (min m x)) (min_le_left m x)

theorem foldl_min_le_mem : ∀ (xs : List Int) (m x : Int), x ∈ xs → xs.foldl min m ≤ x := by
  intro xs
  induction xs with
  | nil => intro m x hx; simp at hx
  | cons y ys ih =>
    intro m x hx
    rw [List.foldl_cons]
    rcases List.mem_cons.mp hx with rfl | hx2
    · exact le_trans (foldl_min_le_init ys _) (min_le_right m x)
    · exact ih _ x hx2

theorem intMinOfList_le (l : List Int) (m : Int) (h : intMinOfList l = some m) :
    ∀ x ∈ l, m ≤ x := by
  cases l with
  | nil => simp [intMinOfList] at h
  | cons y ys =>
    simp only [intMinOfList, Option.some.injEq] at h
    intro x hx
    rcases List.mem_cons.mp hx with rfl | hx2
    · rw [← h]; exact foldl_min_le_init ys x
    · rw [← h]; exact foldl_min_le_mem ys y x hx2

theorem foldl_min_mem : ∀ (xs : List Int) (m : Int), xs.foldl min m = m ∨ xs.foldl min m ∈ xs := by
  intro xs
  induction xs with
  | nil => intro m; exact Or.inl rfl
  | cons x xs ih =>
    intro m
    rw [List.foldl_cons]
    rcases ih (min m x) with h | h
    · rw [h]
      rcases min_choice m x with h2 | h2
      · exact Or.inl h2
      · exact Or.inr (by rw [h2]; exact List.mem_cons_self _ _)
    · exact Or.inr (List.mem_cons_of_mem _ h)

theorem intMinOfList_mem (l : List Int) (m : Int) (h : intMinOfList l = some m) : m ∈ l := by
  cases l with
  | nil => simp [intMinOfList] at h
  | cons y ys =>
    simp only [intMinOfList, Option.some.injEq] at h
    rcases foldl_min_mem ys y with h2 | h2
    · rw [← h, h2]; exact List.mem_cons_self _ _
    · rw [← h]; exact List.mem_cons_of_mem _ h2

theorem intMinOfList_isSome (l : List Int) (h : l ≠ []) : ∃ m, intMinOfList l = some m := by
  cases l with
  | nil => exact absurd rfl h
  | cons y ys => exact ⟨ys.foldl min y, rfl⟩

/-- The conditional dependency fold of the forward pass only grows. -/
theorem condFold_ge_init (ids : List String) (ef : String → Int) :
    ∀ (deps : List String) (m : Int),
      m ≤ deps.foldl (fun m d => if d ∈ ids then max m (ef d) else m) m := by
  intro deps
  induction deps with
  | nil => intro m; exact le_refl m
  | cons d ds ih =>
    intro m
    rw [List.foldl_cons]
    by_cases hd : d ∈ ids
    · rw [if_pos hd]
      exact le_trans (le_max_left m (ef d)) (ih _)
    · rw [if_neg hd]
      exact ih m

theorem condFold_ge_init' (ids : List String) (ef : String → Int) :
    ∀ (deps : List String) (m m0 : Int), m0 ≤ m →
      m0 ≤ deps.foldl (fun m d => if d ∈ ids then max m (ef d) else m) m :=
  fun deps m m0 h => le_trans h (condFold_ge_init ids ef deps m)

theorem condFold_ge_mem (ids : List String) (ef : String → Int) :
    ∀ (deps : List String) (m : Int) (d : String), d ∈ deps → d ∈ ids →
      ef d ≤ deps.foldl (fun m d => if d ∈ ids then max m (ef d) else m) m := by
  intro deps
  induction deps with
  | nil => intro m d hd; simp at hd
  | cons e es ih =>
    intro m d hd hdi
    rw [List.foldl_cons]
    rcases List.mem_cons.mp hd with rfl | hd2
    · rw [if_pos hdi]
      exact condFold_ge_init' ids ef es _ _ (le_max_right m (ef d))
    · by_cases he : e ∈ ids
      · rw [if_pos he]; exact ih _ d hd2 hdi
      · rw [if_neg he]; exact ih m d hd2 hdi

theorem condFold_congr (ids : List String) (ef1 ef2 : String → Int) :
    ∀ (deps : List String), (∀ d ∈ deps, ef1 d = ef2 d) → ∀ (m : Int),
      deps.foldl (fun m d => if d ∈ ids then max m (ef1 d) else m) m
        = deps.foldl (fun m d => if d ∈ ids then max m (ef2 d) else m) m := by
  intro deps
  induction deps with
  | nil => intro _ m; rfl
  | cons d ds ih =>
    intro h m
    rw [List.foldl_cons, List.foldl_cons]
    rw [h d (List.mem_cons_self _ _)]
    exact ih (fun e he => h e (List.mem_cons_of_mem _ he)) _

theorem condFold_eq_plain (ids : List String) (ef : String → Int) :
    ∀ (deps : List String), (∀ d ∈ deps, d ∈ ids) → ∀ (m : Int),
      deps.foldl (fun m d => if d ∈ ids then max m (ef d) else m) m
        = (deps.map ef).foldl max m := by
  intro deps
  induction deps with
  | nil => intro _ m; rfl
  | cons d ds ih =>
    intro h m
    rw [List.foldl_cons, if_pos (h d (List.mem_cons_self _ _)), List.map_cons, List.foldl_cons]
    exact ih (fun e he => h e (List.mem_cons_of_mem _ he)) _

theorem foldl_max_assoc : ∀ (xs : List Int) (a b : Int),
    xs.foldl max (max a b) = max a (xs.foldl max b) := by
  intro xs
  induction xs with
  | nil => intro a b; rfl
  | cons c cs ih =>
    intro a b
    rw [List.foldl_cons, List.foldl_cons, max_assoc, ih]

theorem foldl_max_zero_eq (l : List Int) (h : l ≠ []) :
    l.foldl max 0 = max 0 (intMaxOfList l) := by
  cases l with
  | nil => exact absurd rfl h
  | cons x xs =>
    rw [List.foldl_cons, intMaxOfList]
    exact foldl_max_assoc xs 0 x

/-! Stability and ordering lemmas for the CPM passes. -/

theorem forward_untouched (ids : List String) :
    ∀ (l : List Activity) (s : (String → Int) × (String → Int)) (x : String),
      x ∉ l.map (·.id) →
      (l.foldl (forwardStep ids) s).1 x = s.1 x
        ∧ (l.foldl (forwardStep ids) s).2 x = s.2 x := by
  intro l
  induction l with
  | nil => intro s x _; exact ⟨rfl, rfl⟩
  | cons a rest ih =>
    intro s x hx
    simp only [List.map_cons, List.mem_cons, not_or] at hx
    obtain ⟨hxa, hxr⟩ := hx
    rw [List.foldl_cons]
    obtain ⟨h1, h2⟩ := ih (forwardStep ids s a) x (by simpa using hxr)
    rw [h1, h2]
    unfold forwardStep
    simp only [updFn]
    rw [if_neg hxa, if_neg hxa]
    exact ⟨rfl, rfl⟩

theorem backward_untouched (pd : Int) (revd : String → List String) :
    ∀ (l : List Activity) (s : (String → Int) × (String → Int)) (x : String),
      x ∉ l.map (·.id) →
      (l.foldl (backwardStep pd revd) s).1 x = s.1 x
        ∧ (l.foldl (backwardStep pd revd) s).2 x = s.2 x := by
  intro l
  induction l with
  | nil => intro s x _; exact ⟨rfl, rfl⟩
  | cons a rest ih =>
    intro s x hx
    simp only [List.map_cons, List.mem_cons, not_or] at hx
    obtain ⟨hxa, hxr⟩ := hx
    rw [List.foldl_cons]
    obtain ⟨h1, h2⟩ := ih (backwardStep pd revd s a) x (by simpa using hxr)
    rw [h1, h2]
    unfold backwardStep
    simp only [updFn]
    rw [if_neg hxa, if_neg hxa]
    exact ⟨rfl, rfl⟩

theorem depsEarlier_spec :
    ∀ (l : List Activity) (seen : List String), depsEarlier seen l = true →
      ∀ (l1 : List Activity) (a : Activity) (l2 : List Activity), l = l1 ++ a :: l2 →
        ∀ d ∈ a.dependency_ids, d ∈ seen ∨ d ∈ l1.map (·.id) := by
  intro l
  induction l with
  | nil =>
    intro seen _ l1 a l2 heq
    cases l1 <;> simp at heq
  | cons b rest ih =>
    intro seen hde l1 a l2 heq d hd
    simp only [depsEarlier, Bool.and_eq_true, List.all_eq_true, decide_eq_true_eq] at hde
    obtain ⟨hhead, htail⟩ := hde
    cases l1 with
    | nil =>
      simp only [List.nil_append] at heq
      obtain ⟨hba, _⟩ := List.cons.injEq .. ▸ heq
      exact Or.inl (hhead d (by rw [hba]; exact hd))
    | cons c l1' =>
      simp only [List.cons_append] at heq
      obtain ⟨hbc, hrest⟩ := List.cons.injEq .. ▸ heq
      rcases ih (b.id :: seen) (by simpa [depsEarlier] using htail) l1' a l2 hrest d hd with h | h
      · rcases List.mem_cons.mp h with rfl | h2
        · exact Or.inr (by rw [List.map_cons, ← hbc]; exact List.mem_cons_self _ _)
        · exact Or.inl h2
      · exact Or.inr (by rw [List.map_cons]; exact List.mem_cons_of_mem _ h)

theorem succsEarlier_spec (revd : String → List String) :
    ∀ (l : List Activity) (seen : List String), succsEarlier revd seen l = true →
      ∀ (l1 : List Activity) (a : Activity) (l2 : List Activity), l = l1 ++ a :: l2 →
        ∀ x ∈ revd a.id, x ∈ seen ∨ x ∈ l1.map (·.id) := by
  intro l
  induction l with
  | nil =>
    intro seen _ l1 a l2 heq
    cases l1 <;> simp at heq
  | cons b rest ih =>
    intro seen hse l1 a l2 heq x hx
    simp only [succsEarlier, Bool.and_eq_true, List.all_eq_true, decide_eq_true_eq] at hse
    obtain ⟨hhead, htail⟩ := hse
    cases l1 with
    | nil =>
      simp only [List.nil_append] at heq
      obtain ⟨hba, _⟩ := List.cons.injEq .. ▸ heq
      exact Or.inl (hhead x (by rw [hba]; exact hx))
    | cons c l1' =>
      simp only [List.cons_append] at heq
      obtain ⟨hbc, hrest⟩ := List.cons.injEq .. ▸ heq
      rcases ih (b.id :: seen) (by simpa [succsEarlier] using htail) l1' a l2 hrest x hx with h | h
      · rcases List.mem_cons.mp h with rfl | h2
        · exact Or.inr (by rw [List.map_cons, ← hbc]; exact List.mem_cons_self _ _)
        · exact Or.inl h2
      · exact Or.inr (by rw [List.map_cons]; exact List.mem_cons_of_mem _ h)

theorem revDeps_inner_mem (aid : String) :
    ∀ (deps : List String) (m : String → List String) (i x : String),
      x ∈ (deps.foldl (fun m d => updFn m d (m d ++ [aid])) m) i
        ↔ x ∈ m i ∨ (i ∈ deps ∧ x = aid) := by
  intro deps
  induction deps with
  | nil => intro m i x; simp
  | cons d ds ih =>
    intro m i x
    rw [List.foldl_cons, ih]
    unfold updFn
    by_cases hid : i = d
    · subst hid
      simp only [eq_self_iff_true, if_true, List.mem_append, List.mem_singleton,
        List.mem_cons]
      tauto
    · rw [if_neg hid]
      simp only [List.mem_cons]
      constructor
      · rintro (h | h)
        · exact Or.inl h
        · exact Or.inr ⟨Or.inr h.1, h.2⟩
      · rintro (h | ⟨h1, h2⟩)
        · exact Or.inl h
        · rcases h1 with h1 | h1
          · exact absurd h1 hid
          · exact Or.inr ⟨h1, h2⟩

theorem revDeps_aux :
    ∀ (l : List Activity) (m : String → List String) (i x : String),
      x ∈ (l.foldl (fun m a => a.dependency_ids.foldl
            (fun m d => updFn m d (m d ++ [a.id])) m) m) i
        ↔ x ∈ m i ∨ ∃ b ∈ l, b.id = x ∧ i ∈ b.dependency_ids := by
  intro l
  induction l with
  | nil => intro m i x; simp
  | cons a rest ih =>
    intro m i x
    rw [List.foldl_cons, ih, revDeps_inner_mem]
    constructor
    · rintro ((h | ⟨h1, h2⟩) | ⟨b, hb, h1, h2⟩)
      · exact Or.inl h
      · exact Or.inr ⟨a, List.mem_cons_self _ _, h2.symm, h1⟩
      · exact Or.inr ⟨b, List.mem_cons_of_mem _ hb, h1, h2⟩
    · rintro (h | ⟨b, hb, h1, h2⟩)
      · exact Or.inl (Or.inl h)
      · rcases List.mem_cons.mp hb with rfl | hb2
        · exact Or.inl (Or.inr ⟨h2, h1.symm⟩)
        · exact Or.inr ⟨b, hb2, h1, h2⟩

theorem revDeps_mem (acts : List Activity) (i x : String) :
    x ∈ revDeps acts i ↔ ∃ b ∈ acts, b.id = x ∧ i ∈ b.dependency_ids := by
  unfold revDeps
  rw [revDeps_aux]
  simp

theorem id_unique (acts : List Activity) (hnd : (acts.map (·.id)).Nodup) :
    ∀ a ∈ acts, ∀ b ∈ acts, a.id = b.id → a = b := by
  induction acts with
  | nil => intro a ha; simp at ha
  | cons x xs ih =>
    intro a ha b hb heq
    simp only [List.map_cons, List.nodup_cons] at hnd
    obtain ⟨hx, hxs⟩ := hnd
    rcases List.mem_cons.mp ha with rfl | ha2 <;> rcases List.mem_cons.mp hb with rfl | hb2
    · rfl
    · exact absurd (List.mem_map.mpr ⟨b, hb2, heq.symm⟩) hx
    · exact absurd (List.mem_map.mpr ⟨a, ha2, heq⟩) hx
    · exact ih hxs a ha2 b hb2 heq

theorem forwardStep_fst_self (ids : List String)
    (s : (String → Int) × (String → Int)) (a : Activity) :
    (forwardStep ids s a).1 a.id
      = (if a.dependency_ids.isEmpty then a.start_day
         else max ((a.dependency_ids.foldl
             (fun m d => if d ∈ ids then max m (s.2 d) else m) 0) + 1) a.start_day) := by
  unfold forwardStep updFn
  simp

theorem forwardStep_snd_self (ids : List String)
    (s : (String → Int) × (String → Int)) (a : Activity) :
    (forwardStep ids s a).2 a.id = (forwardStep ids s a).1 a.id + a.duration - 1 := by
  unfold forwardStep updFn
  simp

theorem backwardStep_fst_self (pd : Int) (revd : String → List String)
    (s : (String → Int) × (String → Int)) (a : Activity) :
    (backwardStep pd revd s a).1 a.id
      = (if revd a.id = [] then pd
         else match intMinOfList ((revd a.id).map s.2) with
           | some m => m - 1
           | none => pd) := by
  unfold backwardStep updFn
  simp

theorem backwardStep_snd_self (pd : Int) (revd : String → List String)
    (s : (String → Int) × (String → Int)) (a : Activity) :
    (backwardStep pd revd s a).2 a.id = (backwardStep pd revd s a).1 a.id - a.duration + 1 := by
  unfold backwardStep updFn
  simp

/-- Characterization of the forward pass: processing a list whose
dependencies all point at already-seen ids leaves each activity with the
early start prescribed by its step formula, evaluated at the FINAL early
finishes, and early finish = early start + duration - 1. -/
theorem fw_char (ids : List String) :
    ∀ (l : List Activity) (s : (String → Int) × (String → Int)) (seen : List String),
      depsEarlier seen l = true →
      (l.map (·.id)).Nodup →
      (∀ x ∈ l.map (·.id), x ∉ seen) →
      ∀ a ∈ l,
        (l.foldl (forwardStep ids) s).1 a.id
          = (if a.dependency_ids.isEmpty then a.start_day
             else max ((a.dependency_ids.foldl
                 (fun m d => if d ∈ ids then
                    max m ((l.foldl (forwardStep ids) s).2 d) else m) 0) + 1)
               a.start_day)
        ∧ (l.foldl (forwardStep ids) s).2 a.id
            = (l.foldl (forwardStep ids) s).1 a.id + a.duration - 1 := by
  intro l
  induction l with
  | nil => intro s seen _ _ _ a ha; simp at ha
  | cons b rest ih =>
    intro s seen hde hnd hdisj a ha
    simp only [depsEarlier, Bool.and_eq_true, List.all_eq_true, decide_eq_true_eq] at hde
    obtain ⟨hhead, htail⟩ := hde
    simp only [List.map_cons, List.nodup_cons] at hnd
    obtain ⟨hbid, hndr⟩ := hnd
    have hbid_not_seen : b.id ∉ seen := hdisj b.id (by simp)
    rcases List.mem_cons.mp ha with rfl | har
    · -- a is the head b: its value is written by the first step and
      -- never touched again; its dependencies are in seen, untouched
      -- throughout.
      rw [List.foldl_cons]
      obtain ⟨hu1, hu2⟩ :=
        forward_untouched ids rest (forwardStep ids s a) a.id (by simpa using hbid)
      have hdep_stable : ∀ d ∈ a.dependency_ids,
          (rest.foldl (forwardStep ids) (forwardStep ids s a)).2 d = s.2 d := by
        intro d hd
        have hds : d ∈ seen := hhead d hd
        have hdnr : d ∉ rest.map (·.id) := by
          intro hmem
          exact hdisj d (by simp [hmem]) hds
        obtain ⟨_, h2⟩ := forward_untouched ids rest (forwardStep ids s a) d hdnr
        rw [h2]
        unfold forwardStep
        simp only [updFn]
        rw [if_neg (by rintro rfl; exact hbid_not_seen hds)]
      constructor
      · rw [hu1, forwardStep_fst_self]
        have hfold := condFold_congr ids
          (fun d => (rest.foldl (forwardStep ids) (forwardStep ids s a)).2 d)
          s.2 a.dependency_ids hdep_stable 0
        rw [hfold]
      · rw [hu1, hu2, forwardStep_snd_self]
    · -- a is in the tail: apply the induction hypothesis after the
      -- first step.
      rw [List.foldl_cons]
      exact ih (forwardStep ids s b) (b.id :: seen)
        (by simpa [depsEarlier] using htail) hndr
        (by
          intro x hx
          simp only [List.mem_cons, not_or]
          exact ⟨by rintro rfl; exact hbid hx, hdisj x (by simp [hx])⟩)
        a har

/-- Characterization of the backward pass, mirror image of fw_char. -/
theorem bw_char (pd : Int) (revd : String → List String) :
    ∀ (l : List Activity) (s : (String → Int) × (String → Int)) (seen : List String),
      succsEarlier revd seen l = true →
      (l.map (·.id)).Nodup →
      (∀ x ∈ l.map (·.id), x ∉ seen) →
      ∀ a ∈ l,
        (l.foldl (backwardStep pd revd) s).1 a.id
          = (if revd a.id = [] then pd
             else match intMinOfList ((revd a.id).map
                 ((l.foldl (backwardStep pd revd) s).2)) with
               | some m => m - 1
               | none => pd)
        ∧ (l.foldl (backwardStep pd revd) s).2 a.id
            = (l.foldl (backwardStep pd revd) s).1 a.id - a.duration + 1 := by
  intro l
  induction l with
  | nil => intro s seen _ _ _ a ha; simp at ha
  | cons b rest ih =>
    intro s seen hse hnd hdisj a ha
    simp only [succsEarlier, Bool.and_eq_true, List.all_eq_true, decide_eq_true_eq] at hse
    obtain ⟨hhead, htail⟩ := hse
    simp only [List.map_cons, List.nodup_cons] at hnd
    obtain ⟨hbid, hndr⟩ := hnd
    have hbid_not_seen : b.id ∉ seen := hdisj b.id (by simp)
    rcases List.mem_cons.mp ha with rfl | har
    · rw [List.foldl_cons]
      obtain ⟨hu1, hu2⟩ :=
        backward_untouched pd revd rest (backwardStep pd revd s a) a.id (by simpa using hbid)
      have hsucc_stable : ∀ x ∈ revd a.id,
          (rest.foldl (backwardStep pd revd) (backwardStep pd revd s a)).2 x = s.2 x := by
        intro x hx
        have hxs : x ∈ seen := hhead x hx
        have hxnr : x ∉ rest.map (·.id) := by
          intro hmem
          exact hdisj x (by simp [hmem]) hxs
        obtain ⟨_, h2⟩ := backward_untouched pd revd rest (backwardStep pd revd s a) x hxnr
        rw [h2]
        unfold backwardStep
        simp only [updFn]
        rw [if_neg (by rintro rfl; exact hbid_not_seen hxs)]
      constructor
      · rw [hu1, backwardStep_fst_self]
        rw [List.map_congr_left hsucc_stable]
      · rw [hu1, hu2, backwardStep_snd_self]
    · rw [List.foldl_cons]
      exact ih (backwardStep pd revd s b) (b.id :: seen)
        (by simpa [succsEarlier] using htail) hndr
        (by
          intro x hx
          simp only [List.mem_cons, not_or]
          exact ⟨by rintro rfl; exact hbid hx, hdisj x (by simp [hx])⟩)
        a har

/-- Forward-pass characterization for the whole activity list. -/
theorem fw_char_final (acts : List Activity)
    (hnd : (acts.map (·.id)).Nodup) (hde : depsEarlier [] acts = true) :
    ∀ a ∈ acts,
      earliestStart acts a.id
        = (if a.dependency_ids.isEmpty then a.start_day
           else max ((a.dependency_ids.foldl
               (fun m d => if d ∈ acts.map (·.id) then
                  max m (earliestFinish acts d) else m) 0) + 1)
             a.start_day)
      ∧ earliestFinish acts a.id = earliestStart acts a.id + a.duration - 1 := by
  intro a ha
  have h := fw_char (acts.map (·.id)) acts (fun _ => 0, fun _ => 0) [] hde hnd
    (by simp) a ha
  unfold earliestStart earliestFinish forwardPass
  exact h

/-- Backward-pass characterization for the whole activity list. -/
theorem bw_char_final (acts : List Activity)
    (hnd : (acts.map (·.id)).Nodup)
    (hse : succsEarlier (revDeps acts) [] acts.reverse = true) :
    ∀ a ∈ acts,
      latestFinish acts a.id
        = (if revDeps acts a.id = [] then projectDuration acts
           else match intMinOfList ((revDeps acts a.id).map (latestStart acts)) with
             | some m => m - 1
             | none => projectDuration acts)
      ∧ latestStart acts a.id = latestFinish acts a.id - a.duration + 1 := by
  intro a ha
  have hnd' : (acts.reverse.map (·.id)).Nodup := by
    rw [List.map_reverse]
    exact List.nodup_reverse.mpr hnd
  have h := bw_char (projectDuration acts) (revDeps acts) acts.reverse
    (fun _ => projectDuration acts, fun _ => 0) [] hse hnd'
    (by simp) a (List.mem_reverse.mpr ha)
  unfold latestFinish latestStart backwardPass
  exact h

theorem pd_ge (acts : List Activity) :
    ∀ a ∈ acts, earliestFinish acts a.id ≤ projectDuration acts := by
  intro a ha
  unfold projectDuration
  exact intMaxOfList_ge _ _ (List.mem_map.mpr ⟨a, ha, rfl⟩)

/-- Recorded successors of an activity occur strictly later in the list. -/
theorem succ_mem_rest (acts l1 rest : List Activity) (a : Activity)
    (hsplit : acts = l1 ++ a :: rest)
    (hse : succsEarlier (revDeps acts) [] acts.reverse = true)
    (x : String) (hx : x ∈ revDeps acts a.id) : x ∈ rest.map (·.id) := by
  have hrev : acts.reverse = rest.reverse ++ a :: l1.reverse := by
    rw [hsplit]
    simp
  rcases succsEarlier_spec (revDeps acts) acts.reverse [] hse
      rest.reverse a l1.reverse hrev x hx with h | h
  · simp at h
  · rw [List.map_reverse] at h
    exact List.mem_reverse.mp h

/-- Core CPM inequality: for a valid input list, every activity's early
finish is at most its late finish (total float is non-negative before
clamping). -/
theorem chain_le (acts : List Activity)
    (hnd : (acts.map (·.id)).Nodup) (hde : depsEarlier [] acts = true)
    (hse : succsEarlier (revDeps acts) [] acts.reverse = true) :
    ∀ (l2 : List Activity), (∃ l1, acts = l1 ++ l2) → ∀ a ∈ l2,
      earliestFinish acts a.id ≤ latestFinish acts a.id := by
  intro l2
  induction l2 with
  | nil => intro _ a ha; simp at ha
  | cons a rest ih =>
    rintro ⟨l1, hsplit⟩ b hb
    rcases List.mem_cons.mp hb with rfl | hbr
    · have ha_mem : b ∈ acts := by
        rw [hsplit]
        exact List.mem_append_right _ (List.mem_cons_self _ _)
      obtain ⟨hlf, hls⟩ := bw_char_final acts hnd hse b ha_mem
      by_cases hrv : revDeps acts b.id = []
      · rw [hlf, if_pos hrv]
        exact pd_ge acts b ha_mem
      · rw [hlf, if_neg hrv]
        have hne2 : (revDeps acts b.id).map (latestStart acts) ≠ [] := by
          simpa using hrv
        obtain ⟨m, hm⟩ := intMinOfList_isSome _ hne2
        rw [hm]
        obtain ⟨x, hx, hxm⟩ := List.mem_map.mp (intMinOfList_mem _ m hm)
        obtain ⟨b', hb', hb'id, hb'dep⟩ := (revDeps_mem acts b.id x).mp hx
        have hxrest : x ∈ rest.map (·.id) := succ_mem_rest acts l1 rest b hsplit hse x hx
        obtain ⟨b2, hb2, hb2id⟩ := List.mem_map.mp hxrest
        have hb2acts : b2 ∈ acts := by
          rw [hsplit]
          exact List.mem_append_right _ (List.mem_cons_of_mem _ hb2)
        have hbb : b' = b2 := id_unique acts hnd b' hb' b2 hb2acts (by rw [hb'id, hb2id])
        have hih : earliestFinish acts b2.id ≤ latestFinish acts b2.id :=
          ih ⟨l1 ++ [b], by rw [hsplit]; simp⟩ b2 hb2
        obtain ⟨hes', hef'⟩ := fw_char_final acts hnd hde b' hb'
        obtain ⟨_, hls'⟩ := bw_char_final acts hnd hse b' hb'
        have hdep_ne : ¬ b'.dependency_ids.isEmpty = true := by
          simp only [List.isEmpty_iff]
          intro hc
          rw [hc] at hb'dep
          simp at hb'dep
        have hfold_ge : earliestFinish acts b.id
            ≤ b'.dependency_ids.foldl
                (fun m d => if d ∈ acts.map (·.id) then
                  max m (earliestFinish acts d) else m) 0 :=
          condFold_ge_mem (acts.map (·.id)) (earliestFinish acts) b'.dependency_ids 0
            b.id hb'dep (List.mem_map.mpr ⟨b, ha_mem, rfl⟩)
        have hes_ge : earliestFinish acts b.id + 1 ≤ earliestStart acts b'.id := by
          rw [hes', if_neg hdep_ne]
          have := le_max_left
            (b'.dependency_ids.foldl
              (fun m d => if d ∈ acts.map (·.id) then
                max m (earliestFinish acts d) else m) 0 + 1)
            b'.start_day
          omega
        have hb'2 : earliestFinish acts b'.id ≤ latestFinish acts b'.id := by
          rw [hbb]
          exact hih
        have hxid : latestStart acts b'.id = m := by rw [hb'id, hxm]
        show earliestFinish acts b.id ≤ m - 1
        omega
    · exact ih ⟨l1 ++ [a], by rw [hsplit]; simp⟩ b hbr

theorem chain_le_all (acts : List Activity)
    (hnd : (acts.map (·.id)).Nodup) (hde : depsEarlier [] acts = true)
    (hse : succsEarlier (revDeps acts) [] acts.reverse = true) :
    ∀ a ∈ acts, earliestFinish acts a.id ≤ latestFinish acts a.id :=
  fun a ha => chain_le acts hnd hde hse acts ⟨[], rfl⟩ a ha

/-- On a topologically ordered list every dependency id belongs to the
id universe, so no dependency is skipped by the forward step. -/
theorem deps_in_ids (acts : List Activity) (hde : depsEarlier [] acts = true) :
    ∀ a ∈ acts, ∀ d ∈ a.dependency_ids, d ∈ acts.map (·.id) := by
  intro a ha d hd
  obtain ⟨l1, l2, hsplit⟩ := List.append_of_mem ha
  rcases depsEarlier_spec acts [] hde l1 a l2 hsplit d hd with h | h
  · simp at h
  · rw [hsplit, List.map_append]
    exact List.mem_append_left _ h

theorem es_ge_start (acts : List Activity)
    (hnd : (acts.map (·.id)).Nodup) (hde : depsEarlier [] acts = true) :
    ∀ a ∈ acts, a.start_day ≤ earliestStart acts a.id := by
  intro a ha
  obtain ⟨hes, _⟩ := fw_char_final acts hnd hde a ha
  rw [hes]
  by_cases h : a.dependency_ids.isEmpty
  · rw [if_pos h]
  · rw [if_neg h]
    exact le_max_right _ _

theorem ef_ge_one (acts : List Activity)
    (hnd : (acts.map (·.id)).Nodup) (hde : depsEarlier [] acts = true)
    (hpos : ∀ a ∈ acts, 1 ≤ a.start_day ∧ 1 ≤ a.duration) :
    ∀ a ∈ acts, 1 ≤ earliestFinish acts a.id := by
  intro a ha
  obtain ⟨_, hef⟩ := fw_char_final acts hnd hde a ha
  have h1 := es_ge_start acts hnd hde a ha
  obtain ⟨hs, hd⟩ := hpos a ha
  omega

/-- A recorded successor of an activity appears in its reverse-dependency
list. -/
theorem succ_revd (acts : List Activity) (a b : Activity)
    (hb : b ∈ successorsOf acts a) : b.id ∈ revDeps acts a.id := by
  rw [successorsOf, List.mem_filter] at hb
  obtain ⟨hbacts, hcond⟩ := hb
  simp only [Bool.and_eq_true] at hcond
  exact (revDeps_mem acts a.id b.id).mpr ⟨b, hbacts, rfl, by simpa using hcond.2⟩

/-- Conversely every reverse dependency comes from a successor record. -/
theorem revd_subset_succ (acts : List Activity) (a : Activity) (x : String)
    (hx : x ∈ revDeps acts a.id) : ∃ b ∈ successorsOf acts a, b.id = x := by
  obtain ⟨b, hb, hbid, hdep⟩ := (revDeps_mem acts a.id x).mp hx
  refine ⟨b, ?_, hbid⟩
  rw [successorsOf, List.mem_filter]
  refine ⟨hb, ?_⟩
  have hne : b.dependency_ids ≠ [] := by
    intro hc
    rw [hc] at hdep
    simp at hdep
  simp [List.isEmpty_iff, hne, hdep]

theorem succ_empty_iff (acts : List Activity) (a : Activity) :
    successorsOf acts a = [] ↔ revDeps acts a.id = [] := by
  constructor
  · intro h
    rw [List.eq_nil_iff_forall_not_mem]
    intro x hx
    obtain ⟨b, hbs, _⟩ := revd_subset_succ acts a x hx
    rw [h] at hbs
    simp at hbs
  · intro h
    rw [List.eq_nil_iff_forall_not_mem]
    intro b hb
    have hx := succ_revd acts a b hb
    rw [h] at hx
    simp at hx

/-- C5: CPM forward pass.  On a valid input list (unique ids, every
dependency listed earlier, start days and durations at least 1 as the
data contract requires), an activity with no dependencies has early
start equal to its planned start day; with dependencies the early start
is the maximum dependency early finish plus one, but never earlier than
the planned start day; and early finish is early start plus duration
minus one. -/
theorem c5_forward_pass (acts : List Activity)
    (hnd : (acts.map (·.id)).Nodup) (hde : depsEarlier [] acts = true)
    (hpos : ∀ a ∈ acts, 1 ≤ a.start_day ∧ 1 ≤ a.duration) :
    ∀ a ∈ acts,
      (a.dependency_ids = [] → earliestStart acts a.id = a.start_day)
      ∧ (a.dependency_ids ≠ [] →
          earliestStart acts a.id
            = max (intMaxOfList (a.dependency_ids.map (earliestFinish acts)) + 1)
                a.start_day)
      ∧ earliestFinish acts a.id = earliestStart acts a.id + a.duration - 1 := by
  intro a ha
  obtain ⟨hes, hef⟩ := fw_char_final acts hnd hde a ha
  refine ⟨?_, ?_, hef⟩
  · intro h0
    rw [hes, if_pos (by simp [h0])]
  · intro h0
    have hne : ¬ a.dependency_ids.isEmpty = true := by
      simpa [List.isEmpty_iff] using h0
    rw [hes, if_neg hne]
    have hall : ∀ d ∈ a.dependency_ids, d ∈ acts.map (·.id) :=
      deps_in_ids acts hde a ha
    rw [condFold_eq_plain (acts.map (·.id)) (earliestFinish acts) a.dependency_ids hall 0]
    have hmapne : a.dependency_ids.map (earliestFinish acts) ≠ [] := by
      simpa using h0
    rw [foldl_max_zero_eq _ hmapne]
    obtain ⟨d, hd, hdef⟩ := List.mem_map.mp (intMaxOfList_mem _ hmapne)
    obtain ⟨b, hb, hbid⟩ := List.mem_map.mp (hall d hd)
    have h1 : 1 ≤ earliestFinish acts d := by
      rw [← hbid]
      exact ef_ge_one acts hnd hde hpos b hb
    rw [hdef] at h1
    rw [max_eq_right (by omega :
      (0 : Int) ≤ intMaxOfList (a.dependency_ids.map (earliestFinish acts)))]

/-- C5 witness: on the two-activity example A (no dependencies, start
day 1, duration 2) and B (depends on A, start day 3, duration 3), B's
early start is max(early finish of A + 1, 3) and its early finish is
early start + 3 - 1. -/
theorem c5_forward_pass_witness :
    earliestStart [actCpmA, actCpmB] actCpmB.id
      = max (intMaxOfList (actCpmB.dependency_ids.map
          (earliestFinish [actCpmA, actCpmB])) + 1) actCpmB.start_day
    ∧ earliestFinish [actCpmA, actCpmB] actCpmB.id
        = earliestStart [actCpmA, actCpmB] actCpmB.id + actCpmB.duration - 1 := by
  have h := c5_forward_pass [actCpmA, actCpmB] (by decide) (by decide) (by decide)
    actCpmB (List.mem_cons_of_mem _ (List.mem_cons_self _ _))
  exact ⟨h.2.1 (by decide), h.2.2⟩

/-- C6: float invariants.  On a valid input list (unique ids,
topological order in both directions), every activity's written
total_float is non-negative and its written free_float is at most its
total_float. -/
theorem c6_float_invariants (acts : List Activity)
    (hnd : (acts.map (·.id)).Nodup) (hde : depsEarlier [] acts = true)
    (hse : succsEarlier (revDeps acts) [] acts.reverse = true) :
    ∀ a ∈ acts, 0 ≤ totalFloat acts a ∧ freeFloat acts a ≤ totalFloat acts a := by
  intro a ha
  refine ⟨le_max_left _ _, ?_⟩
  obtain ⟨hes, hef⟩ := fw_char_final acts hnd hde a ha
  obtain ⟨hlf, hls⟩ := bw_char_final acts hnd hse a ha
  simp only [freeFloat, totalFloat]
  refine max_le_max le_rfl ?_
  by_cases hsucc : successorsOf acts a = []
  · have hrv : revDeps acts a.id = [] := (succ_empty_iff acts a).mp hsucc
    rw [if_pos (List.isEmpty_iff.mpr hsucc)]
    have hlf' : latestFinish acts a.id = projectDuration acts := by
      rw [hlf, if_pos hrv]
    omega
  · have hsm : (successorsOf acts a).map (fun b => earliestStart acts b.id) ≠ [] := by
      simpa using hsucc
    obtain ⟨m2, hm2⟩ := intMinOfList_isSome _ hsm
    rw [if_neg (by simpa [List.isEmpty_iff] using hsucc), hm2]
    have hrv : revDeps acts a.id ≠ [] := by
      intro hc
      exact hsucc ((succ_empty_iff acts a).mpr hc)
    have hlm : (revDeps acts a.id).map (latestStart acts) ≠ [] := by
      simpa using hrv
    obtain ⟨m1, hm1⟩ := intMinOfList_isSome _ hlm
    have hlf' : latestFinish acts a.id = m1 - 1 := by
      rw [hlf, if_neg hrv, hm1]
    obtain ⟨x, hx, hxm⟩ := List.mem_map.mp (intMinOfList_mem _ m1 hm1)
    obtain ⟨b', hbs, hbid⟩ := revd_subset_succ acts a x hx
    have hb'acts : b' ∈ acts := by
      rw [successorsOf] at hbs
      exact (List.mem_filter.mp hbs).1
    have hm2le : m2 ≤ earliestStart acts b'.id :=
      intMinOfList_le _ m2 hm2 _ (List.mem_map.mpr ⟨b', hbs, rfl⟩)
    obtain ⟨_, hef'⟩ := fw_char_final acts hnd hde b' hb'acts
    obtain ⟨_, hls'⟩ := bw_char_final acts hnd hse b' hb'acts
    have hch := chain_le_all acts hnd hde hse b' hb'acts
    have hx1 : latestStart acts b'.id = m1 := by rw [hbid, hxm]
    show m2 - earliestFinish acts a.id - 1
        ≤ latestStart acts a.id - earliestStart acts a.id
    omega

/-- C6 witness: both invariants at activity A of the two-activity
example. -/
theorem c6_float_invariants_witness :
    0 ≤ totalFloat [actCpmA, actCpmB] actCpmA
    ∧ freeFloat [actCpmA, actCpmB] actCpmA ≤ totalFloat [actCpmA, actCpmB] actCpmA :=
  c6_float_invariants [actCpmA, actCpmB] (by decide) (by decide) (by decide)
    actCpmA (List.mem_cons_self _ _)

end PTP
